import Mathlib

/-!
# Verification of `middleware/request.go`

A shallow embedding of the Prometheus instrumenting middleware and of the
name normalisation `toSnakeCase`.

Strings are modelled by the sequence of runes that the Go `regexp` and
`strings` packages decode from them (`List Char`, wrapped as `String`).
-/

namespace Middleware

/-! ## Name normalisation -/

/-- Rune class `.` of Go `regexp` without the `s` flag: any rune but the newline. -/
def isDot (c : Char) : Bool := c != '\n'

/-- Rune class `[a-z0-9]`. -/
def isLowerOrDigit (c : Char) : Bool := c.isLower || c.isDigit

/-- One anchored match of `matchFirstCap = (.)([A-Z][a-z]+)` at the head of the
input: the two capture groups and the unconsumed rest. `[a-z]+` is greedy and
last in the pattern, so it takes the whole run of lowercase letters. -/
def matchFirstCap : List Char → Option (List Char × List Char × List Char)
  | a :: b :: c :: rest =>
    if isDot a && b.isUpper && c.isLower then
      some ([a], b :: c :: rest.takeWhile Char.isLower, rest.dropWhile Char.isLower)
    else none
  | _ => none

/-- One anchored match of `matchAllCap = ([a-z0-9])([A-Z])` at the head of the
input: the two capture groups and the unconsumed rest. -/
def matchAllCap : List Char → Option (List Char × List Char × List Char)
  | a :: b :: rest =>
    if isLowerOrDigit a && b.isUpper then some ([a], [b], rest) else none
  | _ => none

/-- The call `matchFirstCap.ReplaceAllString(str, "${1}_${2}")`: scan from the
left; at a position where the pattern matches, emit group 1, an underscore and
group 2 and go on after the match; elsewhere copy one rune and move on. -/
def replaceFirstCap : List Char → List Char
  | [] => []
  | a :: rest =>
    match h : matchFirstCap (a :: rest) with
    | some (g1, g2, r) => g1 ++ '_' :: g2 ++ replaceFirstCap r
    | none => a :: replaceFirstCap rest
termination_by s => s.length
decreasing_by
  · rcases rest with _ | ⟨b, _ | ⟨c, rest⟩⟩
    · simp [matchFirstCap] at h
    · simp [matchFirstCap] at h
    · simp only [matchFirstCap] at h
      split at h
      · simp only [Option.some.injEq, Prod.mk.injEq] at h
        obtain ⟨-, -, rfl⟩ := h
        have := (List.dropWhile_sublist Char.isLower (l := rest)).length_le
        simp only [List.length_cons]
        omega
      · exact absurd h (by simp)
  · simp

/-- The call `matchAllCap.ReplaceAllString(snake, "${1}_${2}")`. -/
def replaceAllCap : List Char → List Char
  | [] => []
  | a :: rest =>
    match h : matchAllCap (a :: rest) with
    | some (g1, g2, r) => g1 ++ '_' :: g2 ++ replaceAllCap r
    | none => a :: replaceAllCap rest
termination_by s => s.length
decreasing_by
  · rcases rest with _ | ⟨b, rest⟩
    · simp [matchAllCap] at h
    · simp only [matchAllCap] at h
      split at h
      · simp only [Option.some.injEq, Prod.mk.injEq] at h
        obtain ⟨-, -, rfl⟩ := h
        simp only [List.length_cons]
        omega
      · exact absurd h (by simp)
  · simp

/-- Go `unicode.ToLower`: ASCII runes are lowered arithmetically; every other
rune goes through the Unicode case tables, which are not part of this
repository and are taken as the parameter `tbl`. -/
def toLowerRune (tbl : Char → Char) (c : Char) : Char :=
  if c.toNat ≤ 0x7F then c.toLower else tbl c

/-- Go `strings.ToLower`: maps `unicode.ToLower` over the runes. -/
def ToLower (tbl : Char → Char) (s : List Char) : List Char :=
  s.map (toLowerRune tbl)

/-- Source function `toSnakeCase`. -/
def toSnakeCase (tbl : Char → Char) (str : String) : String :=
  let snake := replaceFirstCap str.data
  let snake := replaceAllCap snake
  ⟨ToLower tbl snake⟩

/-- Boundary rule in the words of the specification: an underscore goes before
the uppercase character `cur` that has a predecessor `prev` when `prev` is a
lowercase letter or digit, or when `prev` is any character (membership in
`anyChar`) and the successor is a lowercase letter. Uppercase, lowercase and
digit are read as the ASCII classes `A` to `Z`, `a` to `z` and `0` to `9` of
the regular expressions. -/
def specBoundary (anyChar : Char → Bool) (prev : Option Char) (cur : Char)
    (next : Option Char) : Bool :=
  match prev with
  | none => false
  | some p => cur.isUpper && (isLowerOrDigit p || (anyChar p && next.any Char.isLower))

/-- Insertion of exactly one underscore at every boundary of `specBoundary`
and nowhere else; `prev` is the character before the remaining input. -/
def insertUnderscores (anyChar : Char → Bool) : Option Char → List Char → List Char
  | _, [] => []
  | prev, c :: rest =>
    if specBoundary anyChar prev c rest.head? then
      '_' :: c :: insertUnderscores anyChar (some c) rest
    else c :: insertUnderscores anyChar (some c) rest

/-- Normalisation as the specification words it: insert the boundaries, then
lowercase the whole result. -/
def specSnakeCase (anyChar : Char → Bool) (tbl : Char → Char) (str : String) : String :=
  ⟨ToLower tbl (insertUnderscores anyChar none str.data)⟩

/-- Single left-to-right scan equal to `replaceFirstCap` (proved below): `prev`
is the previous rune and `busy` tells that it lies inside the current match. -/
def firstCapScan : Option Char → Bool → List Char → List Char
  | _, _, [] => []
  | prev, busy, d :: rest =>
    if busy && d.isLower then d :: firstCapScan (some d) true rest
    else if !busy && prev.any isDot && d.isUpper && rest.head?.any Char.isLower then
      '_' :: d :: firstCapScan (some d) true rest
    else d :: firstCapScan (some d) false rest

/-- Single left-to-right scan equal to `replaceAllCap` (proved below). -/
def allCapScan : Option Char → List Char → List Char
  | _, [] => []
  | prev, d :: rest =>
    if prev.any isLowerOrDigit && d.isUpper then '_' :: d :: allCapScan (some d) rest
    else d :: allCapScan (some d) rest

/-! ## Metrics registry and middleware

The Prometheus client library is an external collaborator. A one-label vector
is modelled by its children, one per label value created so far, in the order
of creation; a counter child holds the number of `Inc` calls, a histogram child
the observed samples, newest first. Durations are natural numbers (nanoseconds
of a model clock). -/

/-- Go `strconv.Itoa`: decimal digits, most significant first, with a leading
minus sign for a negative number. -/
def Itoa (i : Int) : String :=
  match i with
  | Int.ofNat n => ⟨Nat.toDigits 10 n⟩
  | Int.negSucc n => ⟨'-' :: Nat.toDigits 10 (n + 1)⟩

/-- The child stored for the label value `k`, if there is one. -/
def lookupChild {α : Type} (k : String) : List (String × α) → Option α
  | [] => none
  | (k1, x) :: rest => if k = k1 then some x else lookupChild k rest

/-- Store `x` as the child for the label value `k`: the child is replaced when
there is one and added at the end otherwise. -/
def setChild {α : Type} (k : String) (x : α) : List (String × α) → List (String × α)
  | [] => [(k, x)]
  | (k1, y) :: rest => if k = k1 then (k1, x) :: rest else (k1, y) :: setChild k x rest

/-- Library type `prometheus.CounterVec` with a single label. -/
structure CounterVec where
  Name : String
  Help : String
  labelName : String
  children : List (String × Nat)

/-- Library type `prometheus.HistogramVec` with a single label. -/
structure HistogramVec where
  Name : String
  Help : String
  labelName : String
  children : List (String × List Nat)

/-- The counter child for a label value, if it was created. -/
def CounterVec.child (v : CounterVec) (lv : String) : Option Nat := lookupChild lv v.children

/-- The histogram child for a label value, if it was created. -/
def HistogramVec.child (v : HistogramVec) (lv : String) : Option (List Nat) :=
  lookupChild lv v.children

/-- Library call `WithLabelValues` on a counter vector: the child for the label
value is created with count zero when it does not exist yet. -/
def CounterVec.WithLabelValues (v : CounterVec) (lv : String) : CounterVec :=
  match v.child lv with
  | some _ => v
  | none => { v with children := setChild lv 0 v.children }

/-- Library call `Inc` on the child for `lv`. -/
def CounterVec.Inc (v : CounterVec) (lv : String) : CounterVec :=
  match v.child lv with
  | some n => { v with children := setChild lv (n + 1) v.children }
  | none => v

/-- Library call `WithLabelValues` on a histogram vector: the child for the
label value is created without samples when it does not exist yet. -/
def HistogramVec.WithLabelValues (v : HistogramVec) (lv : String) : HistogramVec :=
  match v.child lv with
  | some _ => v
  | none => { v with children := setChild lv [] v.children }

/-- Library call `Observe` on the child for `lv`. -/
def HistogramVec.Observe (v : HistogramVec) (lv : String) (x : Nat) : HistogramVec :=
  match v.child lv with
  | some xs => { v with children := setChild lv (x :: xs) v.children }
  | none => v

/-- Current count of a counter child; zero when the child does not exist. -/
def CounterVec.value (v : CounterVec) (lv : String) : Nat := (v.child lv).getD 0

/-- Samples of a histogram child; none when the child does not exist. -/
def HistogramVec.samples (v : HistogramVec) (lv : String) : List Nat := (v.child lv).getD []

/-- Library type `prometheus.Timer`: the start time and the observer, here the
label value of the histogram child the timer was made for. -/
structure Timer where
  begin : Nat
  observer : String

/-- Library call `prometheus.NewTimer`. -/
def NewTimer (now : Nat) (observer : String) : Timer := ⟨now, observer⟩

/-- Library call `ObserveDuration`: observes the time elapsed since the start. -/
def Timer.ObserveDuration (t : Timer) (now : Nat) (v : HistogramVec) : HistogramVec :=
  v.Observe t.observer (now - t.begin)

/-- Source type `Prom`. Its field `reg` is the registry the three collectors
are registered with; it refers to these same three vectors, so the model reads
them from the fields. -/
structure Prom where
  totalRequests : CounterVec
  responseStatus : CounterVec
  httpDuration : HistogramVec

/-- One series of a gathered snapshot (`io_prometheus_client.MetricFamily`):
name, help, label name and the value of each child by label value. -/
inductive MetricFamily where
  | counter (name help label : String) (metric : String → Option Nat)
  | histogram (name help label : String) (metric : String → Option (List Nat))

/-- What the registry gathers from a counter vector: one family, or nothing
when the vector has no child yet. -/
def CounterVec.family (v : CounterVec) : List MetricFamily :=
  if v.children.isEmpty then []
  else [MetricFamily.counter v.Name v.Help v.labelName v.child]

/-- What the registry gathers from a histogram vector: one family, or nothing
when the vector has no child yet. -/
def HistogramVec.family (v : HistogramVec) : List MetricFamily :=
  if v.children.isEmpty then []
  else [MetricFamily.histogram v.Name v.Help v.labelName v.child]

/-- Source method `Prom.Gather`, that is `p.reg.Gather()`: the families of the
registered collectors that have a child, ordered by name. -/
def Prom.Gather (p : Prom) : List MetricFamily :=
  p.totalRequests.family ++ p.httpDuration.family ++ p.responseStatus.family

/-- Program state: the allocated `Prom` values by address, the next free
address and the clock. -/
structure World where
  heap : Nat → Option Prom
  next : Nat
  now : Nat

/-- State before anything is allocated. -/
def World.init : World := ⟨fun _ => none, 0, 0⟩

/-- Update through the pointer `prom`. -/
def World.modify (σ : World) (prom : Nat) (f : Prom → Prom) : World :=
  { σ with heap := fun q => if q = prom then (σ.heap prom).map f else σ.heap q }

/-- Call `Gather` through the pointer `prom`. -/
def World.Gather (σ : World) (prom : Nat) : Option (List MetricFamily) :=
  (σ.heap prom).map Prom.Gather

/-- The part of `http.Request` the middleware reads. -/
structure Request where
  RequestURI : String

/-- A call of the downstream handler on the response writer it was given. -/
inductive Call where
  | WriteHeader (code : Int)
  | Write (body : List Nat)
  deriving DecidableEq

/-- Source type `responseWriter`: the embedded writer, modelled by the calls
forwarded to it (oldest first), and the recorded status. -/
structure responseWriter where
  ResponseWriter : List Call
  statusCode : Int

/-- Source function `newResponseWriter`; `http.StatusOK` is 200. -/
def newResponseWriter (w : List Call) : responseWriter := ⟨w, 200⟩

/-- Source method `responseWriter.WriteHeader`. -/
def responseWriter.WriteHeader (rw : responseWriter) (code : Int) : responseWriter :=
  { statusCode := code, ResponseWriter := rw.ResponseWriter ++ [Call.WriteHeader code] }

/-- Method `Write`, promoted from the embedded writer: forwarded unchanged. -/
def responseWriter.Write (rw : responseWriter) (body : List Nat) : responseWriter :=
  { rw with ResponseWriter := rw.ResponseWriter ++ [Call.Write body] }

/-- Dispatch of one call of the handler on the wrapped writer. -/
def responseWriter.call (rw : responseWriter) : Call → responseWriter
  | Call.WriteHeader code => rw.WriteHeader code
  | Call.Write body => rw.Write body

/-- What one execution of a downstream handler does, as far as the middleware
can observe it: the calls on the writer in order, the time taken, and whether
it ends in a panic instead of returning. -/
structure Run where
  calls : List Call
  elapsed : Nat
  panics : Bool

/-- A downstream `http.Handler`: what it does on a request. Theorems quantify
over all handlers, so every behaviour on the writer is covered. -/
abbrev Handler := Request → Run

/-- Result of serving one request through the middleware. -/
inductive Outcome where
  | returned (σ : World)
  | panicked (σ : World)

/-- State after the request, however it ended. -/
def Outcome.world : Outcome → World
  | Outcome.returned σ => σ
  | Outcome.panicked σ => σ

/-- The handler `next.ServeHTTP(rw, r)` applied to the wrapped writer. -/
def ServeHTTP (next : Handler) (rw : responseWriter) (r : Request) : responseWriter :=
  (next r).calls.foldl responseWriter.call rw

/-- Source function `makeMiddleware`, applied to the downstream handler `next`
and then to one request: `w` is the writer of the server, `r` the request. -/
def makeMiddleware (prom : Nat) (next : Handler) (w : List Call) (r : Request)
    (σ : World) : Outcome :=
  let path := r.RequestURI
  let σ := σ.modify prom fun p => { p with httpDuration := p.httpDuration.WithLabelValues path }
  let timer := NewTimer σ.now path
  let rw := newResponseWriter w
  let run := next r
  let rw := ServeHTTP next rw r
  let σ := { σ with now := σ.now + run.elapsed }
  if run.panics then Outcome.panicked σ
  else
    let statusCode := rw.statusCode
    let σ := σ.modify prom fun p =>
      { p with responseStatus :=
          (p.responseStatus.WithLabelValues (Itoa statusCode)).Inc (Itoa statusCode) }
    let σ := σ.modify prom fun p =>
      { p with totalRequests := (p.totalRequests.WithLabelValues path).Inc path }
    let σ := σ.modify prom fun p =>
      { p with httpDuration := timer.ObserveDuration σ.now p.httpDuration }
    Outcome.returned σ

/-- Library call `prometheus.NewCounterVec` with one label name: a vector
without children. -/
def NewCounterVec (name help label : String) : CounterVec := ⟨name, help, label, []⟩

/-- Library call `prometheus.NewHistogramVec` with one label name. -/
def NewHistogramVec (name help label : String) : HistogramVec := ⟨name, help, label, []⟩

/-- Registration as `promauto.With(reg)` does it (`MustRegister`): `reg` lists
the names registered so far. The registration panics, here `none`, when the
library rejects the metric name or the name is registered already. Which names
the library accepts depends on its version and is the parameter `validName`. -/
def MustRegister (validName : String → Bool) (reg : List String) (name : String) :
    Option (List String) :=
  if validName name = true ∧ name ∉ reg then some (reg ++ [name]) else none

/-- The metric-name rule of the library before it allowed UTF-8 names: the
pattern `[a-zA-Z_:][a-zA-Z0-9_:]*`. -/
def legacyMetricName (name : String) : Bool :=
  match name.data with
  | [] => false
  | c :: cs =>
    (c.isAlpha || c == '_' || c == ':') &&
      cs.all fun d => d.isAlphanum || d == '_' || d == ':'

/-- The metric-name rule of the library since it allows UTF-8 names: any name
that is not empty. -/
def utf8MetricName (name : String) : Bool := !name.data.isEmpty

/-- Source function `New`: registers the three collectors with a new registry,
allocates the `Prom` value at a fresh address and returns the pointer, the
middleware bound to it and the new state; `none` when a registration panics. -/
def New (tbl : Char → Char) (validName : String → Bool) (serviceName : String) (σ : World) :
    Option (Nat × (Handler → List Call → Request → World → Outcome) × World) :=
  let totalRequests := NewCounterVec (toSnakeCase tbl serviceName ++ "_http_requests_total")
    ("Number of requests to service " ++ serviceName ++ " according to path.") "path"
  let responseStatus := NewCounterVec (toSnakeCase tbl serviceName ++ "_response_status")
    ("Status of HTTP response for service " ++ serviceName) "status"
  let httpDuration := NewHistogramVec
    (toSnakeCase tbl serviceName ++ "_http_response_time_seconds")
    ("Duration of HTTP requests for service " ++ serviceName ++ " according to path.") "path"
  match MustRegister validName [] totalRequests.Name with
  | none => none
  | some reg =>
    match MustRegister validName reg responseStatus.Name with
    | none => none
    | some reg =>
      match MustRegister validName reg httpDuration.Name with
      | none => none
      | some _ =>
        let rec_ : Prom := ⟨totalRequests, responseStatus, httpDuration⟩
        let prom := σ.next
        let middleware := makeMiddleware prom
        some (prom, middleware,
          { σ with heap := fun q => if q = prom then some rec_ else σ.heap q,
                   next := σ.next + 1 })

/-- A sequence of requests served one after the other by the same middleware;
each comes with its downstream handler, and the server goes on with the next
request after a panic. -/
def serveAll (middleware : Handler → List Call → Request → World → Outcome) :
    List (Handler × Request) → World → World
  | [], σ => σ
  | (next, r) :: reqs, σ => serveAll middleware reqs (middleware next [] r σ).world

/-- A sequence of requests, each served by one of two middlewares: the flag
tells which (`true` for the first). -/
def serveBoth (mwA mwB : Handler → List Call → Request → World → Outcome) :
    List (Bool × Handler × Request) → World → World
  | [], σ => σ
  | (true, next, r) :: reqs, σ => serveBoth mwA mwB reqs (mwA next [] r σ).world
  | (false, next, r) :: reqs, σ => serveBoth mwA mwB reqs (mwB next [] r σ).world

/-- Registry value after one request that returns normally. -/
def afterReturn (P : Prom) (path : String) (statusCode : Int) (d : Nat) : Prom :=
  { totalRequests := (P.totalRequests.WithLabelValues path).Inc path
    responseStatus := (P.responseStatus.WithLabelValues (Itoa statusCode)).Inc (Itoa statusCode)
    httpDuration := (P.httpDuration.WithLabelValues path).Observe path d }

/-- Registry value after a sequence of requests that all return normally. -/
def afterAll (P : Prom) (reqs : List (Handler × Request)) : Prom :=
  reqs.foldl (fun Q x => afterReturn Q x.2.RequestURI
    (ServeHTTP x.1 (newResponseWriter []) x.2).statusCode (x.1 x.2).elapsed) P

/-- Registry value after one request whose handler panics. -/
def afterPanic (P : Prom) (path : String) : Prom :=
  { P with httpDuration := P.httpDuration.WithLabelValues path }

/-- A handler that sets the status `code`, writes nothing else and returns
after `d` units of time. -/
def statusHandler (code : Int) (d : Nat) : Handler :=
  fun _ => ⟨[Call.WriteHeader code], d, false⟩

/-- A handler that writes a body without setting a status and returns. -/
def bodyHandler (body : List Nat) : Handler :=
  fun _ => ⟨[Call.Write body], 1, false⟩

/-- A handler that calls `WriteHeader` twice, with `c1` and then with `c2`. -/
def twiceHandler (c1 c2 : Int) : Handler :=
  fun _ => ⟨[Call.WriteHeader c1, Call.WriteHeader c2], 1, false⟩

/-- A handler that panics at once. -/
def panicHandler : Handler :=
  fun _ => ⟨[], 0, true⟩

/-- The registry value that `New` builds for the service name "svc". -/
def svcProm : Prom :=
  { totalRequests := NewCounterVec "svc_http_requests_total"
      "Number of requests to service svc according to path." "path"
    responseStatus := NewCounterVec "svc_response_status"
      "Status of HTTP response for service svc" "status"
    httpDuration := NewHistogramVec "svc_http_response_time_seconds"
      "Duration of HTTP requests for service svc according to path." "path" }

/-- A state with the single registry `svcProm` at address 0. -/
def svcWorld : World := ⟨fun q => if q = 0 then some svcProm else none, 1, 0⟩

/-- End-to-end scenario of the specification: a registry for "Order Service",
three requests to `/orders` answered with 200 and one answered with 500; the
result is the registry value at the end, `none` when `New` panics. -/
def orderScenario (tbl : Char → Char) (validName : String → Bool) (σ : World)
    (d1 d2 d3 d4 : Nat) : Option Prom :=
  match New tbl validName "Order Service" σ with
  | none => none
  | some (prom, middleware, σ1) =>
    (serveAll middleware
      [(statusHandler 200 d1, ⟨"/orders"⟩), (statusHandler 200 d2, ⟨"/orders"⟩),
       (statusHandler 200 d3, ⟨"/orders"⟩), (statusHandler 500 d4, ⟨"/orders"⟩)] σ1).heap prom

/-- A small stand-in for the Unicode case table, used in examples: it lowers the
letter É and fixes every other rune. -/
def sampleTable : Char → Char := fun c => if c = 'É' then 'é' else c

/-- Value of a decimal digit rune. -/
def digitVal (c : Char) : Nat := c.toNat - 48

/-- Number read from decimal digits, most significant first. -/
def decodeDigits (cs : List Char) : Nat := cs.foldl (fun acc c => 10 * acc + digitVal c) 0

/-- Code of the first `WriteHeader` call among the calls, if any. -/
def firstWriteHeader : List Call → Option Int
  | [] => none
  | Call.WriteHeader code :: _ => some code
  | Call.Write _ :: cs => firstWriteHeader cs

/-- Code of the last `WriteHeader` call among the calls, if any. -/
def lastWriteHeader : List Call → Option Int
  | [] => none
  | Call.WriteHeader code :: cs => (lastWriteHeader cs).orElse fun _ => some code
  | Call.Write _ :: cs => lastWriteHeader cs

/-- A character allowed by the claim on the output of `toSnakeCase`: a
lowercase letter `a` to `z`, a digit or an underscore. -/
def isSnakeChar (c : Char) : Bool := c.isLower || c.isDigit || c == '_'

/-! ## Lemmas on runes -/

theorem isUpper_iff (c : Char) : c.isUpper = true ↔ 65 ≤ c.toNat ∧ c.toNat ≤ 90 := by
  simp only [Char.isUpper, ge_iff_le, Bool.and_eq_true, decide_eq_true_eq, UInt32.le_def,
    Fin.le_def]
  exact Iff.rfl

theorem isLower_iff (c : Char) : c.isLower = true ↔ 97 ≤ c.toNat ∧ c.toNat ≤ 122 := by
  simp only [Char.isLower, ge_iff_le, Bool.and_eq_true, decide_eq_true_eq, UInt32.le_def,
    Fin.le_def]
  exact Iff.rfl

theorem isDigit_iff (c : Char) : c.isDigit = true ↔ 48 ≤ c.toNat ∧ c.toNat ≤ 57 := by
  simp only [Char.isDigit, ge_iff_le, Bool.and_eq_true, decide_eq_true_eq, UInt32.le_def,
    Fin.le_def]
  exact Iff.rfl

theorem isLowerOrDigit_iff (c : Char) :
    isLowerOrDigit c = true ↔ (97 ≤ c.toNat ∧ c.toNat ≤ 122) ∨ (48 ≤ c.toNat ∧ c.toNat ≤ 57) := by
  simp only [isLowerOrDigit, Bool.or_eq_true, isLower_iff, isDigit_iff]

theorem toNat_ofNat_small (n : Nat) (h : n < 0xd800) : (Char.ofNat n).toNat = n := by
  unfold Char.ofNat
  have hv : n.isValidChar := Or.inl h
  simp only [hv, dite_true]
  rfl

theorem char_eq_of_toNat (c d : Char) (h : c.toNat = d.toNat) : c = d :=
  Char.ext (UInt32.ext h)

theorem toLower_toNat (c : Char) :
    c.toLower.toNat = if 65 ≤ c.toNat ∧ c.toNat ≤ 90 then c.toNat + 32 else c.toNat := by
  unfold Char.toLower
  simp only [ge_iff_le]
  split
  · rw [toNat_ofNat_small]; omega
  · rfl

theorem not_lower_of_upper {c : Char} (h : c.isUpper = true) : c.isLower = false := by
  have h1 := (isUpper_iff c).1 h
  cases hl : c.isLower with
  | false => rfl
  | true => have h2 := (isLower_iff c).1 hl; omega

theorem not_lowerOrDigit_of_upper {c : Char} (h : c.isUpper = true) :
    isLowerOrDigit c = false := by
  have h1 := (isUpper_iff c).1 h
  cases hl : isLowerOrDigit c with
  | false => rfl
  | true => have h2 := (isLowerOrDigit_iff c).1 hl; omega

theorem lowerOrDigit_of_lower {c : Char} (h : c.isLower = true) : isLowerOrDigit c = true := by
  simp [isLowerOrDigit, h]

/-! ## The two replacement passes as single scans -/

theorem replaceFirstCap_some {a : Char} {rest g1 g2 r : List Char}
    (h : matchFirstCap (a :: rest) = some (g1, g2, r)) :
    replaceFirstCap (a :: rest) = g1 ++ '_' :: g2 ++ replaceFirstCap r := by
  rw [replaceFirstCap]
  split
  · rename_i x1 x2 x3 heq
    rw [h] at heq
    simp only [Option.some.injEq, Prod.mk.injEq] at heq
    obtain ⟨rfl, rfl, rfl⟩ := heq
    rfl
  · rename_i heq
    rw [h] at heq
    cases heq

theorem replaceFirstCap_none {a : Char} {rest : List Char}
    (h : matchFirstCap (a :: rest) = none) :
    replaceFirstCap (a :: rest) = a :: replaceFirstCap rest := by
  rw [replaceFirstCap]
  split
  · rename_i x1 x2 x3 heq
    rw [h] at heq
    cases heq
  · rfl

theorem replaceAllCap_some {a : Char} {rest g1 g2 r : List Char}
    (h : matchAllCap (a :: rest) = some (g1, g2, r)) :
    replaceAllCap (a :: rest) = g1 ++ '_' :: g2 ++ replaceAllCap r := by
  rw [replaceAllCap]
  split
  · rename_i x1 x2 x3 heq
    rw [h] at heq
    simp only [Option.some.injEq, Prod.mk.injEq] at heq
    obtain ⟨rfl, rfl, rfl⟩ := heq
    rfl
  · rename_i heq
    rw [h] at heq
    cases heq

theorem replaceAllCap_none {a : Char} {rest : List Char}
    (h : matchAllCap (a :: rest) = none) :
    replaceAllCap (a :: rest) = a :: replaceAllCap rest := by
  rw [replaceAllCap]
  split
  · rename_i x1 x2 x3 heq
    rw [h] at heq
    cases heq
  · rfl

theorem replaceFirstCap_nil : replaceFirstCap [] = [] := by
  rw [replaceFirstCap]

theorem replaceAllCap_nil : replaceAllCap [] = [] := by
  rw [replaceAllCap]

/-- After a match the scan copies the run of lowercase letters and restarts. -/
theorem firstCapScan_busy (n : Nat)
    (ih : ∀ (a : Char) (r : List Char), r.length < n →
      replaceFirstCap (a :: r) = a :: firstCapScan (some a) false r) :
    ∀ (p : Char) (rest : List Char), rest.length ≤ n →
      firstCapScan (some p) true rest =
        rest.takeWhile Char.isLower ++ replaceFirstCap (rest.dropWhile Char.isLower) := by
  intro p rest
  induction rest generalizing p with
  | nil => intro _; simp [firstCapScan, replaceFirstCap_nil]
  | cons d r ihr =>
    intro hlen
    simp only [List.length_cons] at hlen
    cases hd : d.isLower with
    | true =>
      simp only [firstCapScan, hd, Bool.and_self, if_true, List.takeWhile_cons,
        List.dropWhile_cons, List.cons_append]
      rw [ihr d (by omega)]
    | false =>
      simp only [firstCapScan, hd, Bool.and_false, Bool.not_true, Bool.false_and,
        List.takeWhile_cons, List.dropWhile_cons, List.nil_append]
      simp only [Bool.false_eq_true, if_false]
      rw [ih d r (by omega)]
      rfl

theorem replaceFirstCap_eq_scan_aux (n : Nat) :
    ∀ (a : Char) (rest : List Char), rest.length < n →
      replaceFirstCap (a :: rest) = a :: firstCapScan (some a) false rest := by
  induction n with
  | zero => intro a rest h; omega
  | succ n ih =>
    intro a rest hlen
    rcases rest with _ | ⟨b, _ | ⟨c, rest⟩⟩
    · rw [replaceFirstCap_none (by simp [matchFirstCap]), replaceFirstCap_nil]
      simp [firstCapScan]
    · rw [replaceFirstCap_none (by simp [matchFirstCap])]
      rw [ih b [] (by simpa using hlen)]
      simp [firstCapScan]
    · simp only [List.length_cons] at hlen
      cases hm : (isDot a && b.isUpper && c.isLower) with
      | true =>
        simp only [Bool.and_eq_true] at hm
        obtain ⟨⟨ha, hb⟩, hc⟩ := hm
        have hmatch : matchFirstCap (a :: b :: c :: rest) =
            some ([a], b :: c :: rest.takeWhile Char.isLower, rest.dropWhile Char.isLower) := by
          simp [matchFirstCap, ha, hb, hc]
        rw [replaceFirstCap_some hmatch]
        have hbl := not_lower_of_upper hb
        simp only [firstCapScan, Bool.not_false, Bool.true_and, Option.any_some, ha, hb,
          List.head?_cons, hc, Bool.and_self, if_true, Bool.false_and, Bool.false_eq_true,
          if_false, hbl, Bool.and_false, Bool.and_true]
        rw [firstCapScan_busy n ih c rest (by omega)]
        simp
      | false =>
        rw [replaceFirstCap_none (by simp [matchFirstCap, hm])]
        rw [ih b (c :: rest) (by simp only [List.length_cons]; omega)]
        have hm2 : (isDot a && b.isUpper && c.isLower) = false := hm
        simp only [firstCapScan, Bool.not_false, Bool.true_and, Option.any_some,
          List.head?_cons, Bool.false_and, Bool.false_eq_true, if_false, hm2]

theorem replaceFirstCap_eq_scan (s : List Char) :
    replaceFirstCap s = firstCapScan none false s := by
  cases s with
  | nil => simp [replaceFirstCap_nil, firstCapScan]
  | cons a rest =>
    rw [replaceFirstCap_eq_scan_aux (rest.length + 1) a rest (by omega)]
    simp [firstCapScan]

theorem replaceAllCap_eq_scan_aux (n : Nat) :
    ∀ (a : Char) (rest : List Char), rest.length < n →
      replaceAllCap (a :: rest) = a :: allCapScan (some a) rest := by
  induction n with
  | zero => intro a rest h; omega
  | succ n ih =>
    intro a rest hlen
    rcases rest with _ | ⟨b, rest⟩
    · rw [replaceAllCap_none (by simp [matchAllCap]), replaceAllCap_nil]
      simp [allCapScan]
    · simp only [List.length_cons] at hlen
      cases hm : (isLowerOrDigit a && b.isUpper) with
      | true =>
        have hmatch : matchAllCap (a :: b :: rest) = some ([a], [b], rest) := by
          simp [matchAllCap, hm]
        rw [replaceAllCap_some hmatch]
        simp only [Bool.and_eq_true] at hm
        have hb := not_lowerOrDigit_of_upper hm.2
        simp only [allCapScan, Option.any_some, hm.1, hm.2, Bool.and_self, if_true,
          List.singleton_append, List.cons_append, List.nil_append]
        rcases rest with _ | ⟨c, rest⟩
        · simp [replaceAllCap_nil, allCapScan]
        · rw [ih c rest (by simp only [List.length_cons] at hlen; omega)]
          simp [allCapScan, hb]
      | false =>
        rw [replaceAllCap_none (by simp [matchAllCap, hm])]
        rw [ih b rest (by omega)]
        have hm2 : (isLowerOrDigit a && b.isUpper) = false := hm
        simp only [allCapScan, Option.any_some, hm2, Bool.false_eq_true, if_false]

theorem replaceAllCap_eq_scan (s : List Char) : replaceAllCap s = allCapScan none s := by
  cases s with
  | nil => simp [replaceAllCap_nil, allCapScan]
  | cons a rest =>
    rw [replaceAllCap_eq_scan_aux (rest.length + 1) a rest (by omega)]
    simp [allCapScan]

/-- The second pass over the output of the first pass inserts exactly the
boundaries of the specification, with `.` read as any rune but the newline. -/
theorem scan_compose (s : List Char) :
    ∀ (prev : Option Char) (busy : Bool),
      (busy = true → ∃ p, prev = some p ∧
        (p.isLower = true ∨ s.head?.any Char.isLower = true)) →
      allCapScan prev (firstCapScan prev busy s) = insertUnderscores isDot prev s := by
  induction s with
  | nil => intro prev busy _; simp [firstCapScan, allCapScan, insertUnderscores]
  | cons d rest ih =>
    intro prev busy hinv
    have ihF := ih (some d) false (by simp)
    have ihT : (d.isLower = true ∨ rest.head?.any Char.isLower = true) →
        allCapScan (some d) (firstCapScan (some d) true rest) =
          insertUnderscores isDot (some d) rest := fun h => ih (some d) true (fun _ => ⟨d, rfl, h⟩)
    have hu1 : Char.isUpper '_' = false := by decide
    have hu2 : isLowerOrDigit '_' = false := by decide
    cases busy with
    | true =>
      obtain ⟨p, rfl, hp⟩ := hinv rfl
      cases hd : d.isLower with
      | true =>
        have hdu : d.isUpper = false := by
          cases hdu : d.isUpper with
          | false => rfl
          | true => rw [not_lower_of_upper hdu] at hd; cases hd
        simp [firstCapScan, allCapScan, insertUnderscores, specBoundary, hd, hdu, ihT (Or.inl hd)]
      | false =>
        have hpl : p.isLower = true := by
          rcases hp with hp | hp
          · exact hp
          · simp [hd] at hp
        have hpd := lowerOrDigit_of_lower hpl
        simp [firstCapScan, allCapScan, insertUnderscores, specBoundary, hd, hpd, ihF]
    | false =>
      cases prev with
      | none =>
        simp [firstCapScan, allCapScan, insertUnderscores, specBoundary, ihF]
      | some p =>
        cases h1 : isDot p <;> cases h2 : d.isUpper <;>
          cases h3 : rest.head?.any Char.isLower <;> cases h4 : isLowerOrDigit p <;>
          simp [firstCapScan, allCapScan, insertUnderscores, specBoundary, h1, h2, h3, h4, ihF,
            hu1, hu2] <;>
          exact ihT (Or.inr h3)

theorem toSnakeCase_data (tbl : Char → Char) (s : String) :
    (toSnakeCase tbl s).data = ToLower tbl (insertUnderscores isDot none s.data) := by
  simp only [toSnakeCase]
  rw [replaceFirstCap_eq_scan, replaceAllCap_eq_scan, scan_compose s.data none false (by simp)]

theorem mem_insertUnderscores (f : Char → Bool) (s : List Char) :
    ∀ (prev : Option Char) (c : Char), c ∈ insertUnderscores f prev s → c = '_' ∨ c ∈ s := by
  induction s with
  | nil => intro prev c h; simp [insertUnderscores] at h
  | cons d rest ih =>
    intro prev c h
    simp only [insertUnderscores] at h
    split at h
    · simp only [List.mem_cons] at h
      rcases h with h | h | h
      · exact Or.inl h
      · exact Or.inr (by simp [h])
      · rcases ih _ _ h with h | h
        · exact Or.inl h
        · exact Or.inr (by simp [h])
    · simp only [List.mem_cons] at h
      rcases h with h | h
      · exact Or.inr (by simp [h])
      · rcases ih _ _ h with h | h
        · exact Or.inl h
        · exact Or.inr (by simp [h])

theorem insertUnderscores_of_no_upper (f : Char → Bool) (s : List Char) :
    ∀ (prev : Option Char), (∀ d ∈ s, d.isUpper = false) → insertUnderscores f prev s = s := by
  induction s with
  | nil => intro prev _; simp [insertUnderscores]
  | cons d rest ih =>
    intro prev h
    have hd : d.isUpper = false := h d (by simp)
    have hb : specBoundary f prev d rest.head? = false := by
      cases prev <;> simp [specBoundary, hd]
    simp only [insertUnderscores, hb, Bool.false_eq_true, if_false]
    rw [ih (some d) (fun x hx => h x (by simp [hx]))]

theorem toLowerRune_ascii (tbl : Char → Char) (c : Char) (h : c.toNat ≤ 0x7F) :
    toLowerRune tbl c = c.toLower := by
  simp [toLowerRune, h]

theorem toLower_not_upper (c : Char) : c.toLower.isUpper = false := by
  cases hu : c.toLower.isUpper with
  | false => rfl
  | true =>
    have h1 := (isUpper_iff _).1 hu
    rw [toLower_toNat] at h1
    split at h1 <;> omega

theorem toLower_of_not_upper (c : Char) (h : c.isUpper = false) : c.toLower = c := by
  apply char_eq_of_toNat
  rw [toLower_toNat]
  split
  · rename_i h1
    rw [(isUpper_iff c).2 h1] at h
    cases h
  · rfl

theorem toLower_toNat_le (c : Char) (h : c.toNat ≤ 0x7F) : c.toLower.toNat ≤ 0x7F := by
  rw [toLower_toNat]
  split <;> omega

/-- A rune that is fixed by `unicode.ToLower` is not in `[A-Z]`. -/
theorem not_upper_of_fixed (tbl : Char → Char) (c : Char) (h : toLowerRune tbl c = c) :
    c.isUpper = false := by
  cases hu : c.isUpper with
  | false => rfl
  | true =>
    have h1 := (isUpper_iff c).1 hu
    rw [toLowerRune_ascii tbl c (by omega)] at h
    have h2 := toLower_not_upper c
    rw [h, hu] at h2
    cases h2

theorem toLowerRune_idem (tbl : Char → Char)
    (htbl : ∀ c : Char, 0x7F < c.toNat → toLowerRune tbl (tbl c) = tbl c) (c : Char) :
    toLowerRune tbl (toLowerRune tbl c) = toLowerRune tbl c := by
  by_cases h : c.toNat ≤ 0x7F
  · rw [toLowerRune_ascii tbl c h, toLowerRune_ascii tbl _ (toLower_toNat_le c h)]
    exact toLower_of_not_upper _ (toLower_not_upper c)
  · have h2 : toLowerRune tbl c = tbl c := by simp [toLowerRune, h]
    rw [h2]
    exact htbl c (by omega)

/-! ## Decimal formatting is injective -/

theorem toDigitsCore_append (fuel : Nat) :
    ∀ (n : Nat) (ds : List Char),
      Nat.toDigitsCore 10 fuel n ds = Nat.toDigitsCore 10 fuel n [] ++ ds := by
  induction fuel with
  | zero => intro n ds; simp [Nat.toDigitsCore]
  | succ fuel ih =>
    intro n ds
    simp only [Nat.toDigitsCore]
    split
    · simp
    · rw [ih (n / 10) (Nat.digitChar (n % 10) :: ds), ih (n / 10) [Nat.digitChar (n % 10)]]
      simp

theorem digitVal_digitChar (k : Nat) (h : k < 10) : digitVal (Nat.digitChar k) = k := by
  have key : ∀ d : Fin 10, digitVal (Nat.digitChar d.val) = d.val := by decide
  exact key ⟨k, h⟩

theorem isDigit_digitChar (k : Nat) (h : k < 10) : (Nat.digitChar k).isDigit = true := by
  have key : ∀ d : Fin 10, (Nat.digitChar d.val).isDigit = true := by decide
  exact key ⟨k, h⟩

theorem decodeDigits_append (xs : List Char) (d : Char) :
    decodeDigits (xs ++ [d]) = 10 * decodeDigits xs + digitVal d := by
  simp [decodeDigits, List.foldl_append]

theorem toDigitsCore_spec (fuel : Nat) :
    ∀ n : Nat, n < fuel →
      decodeDigits (Nat.toDigitsCore 10 fuel n []) = n ∧
      ∀ c ∈ Nat.toDigitsCore 10 fuel n [], c.isDigit = true := by
  induction fuel with
  | zero => intro n h; omega
  | succ fuel ih =>
    intro n hn
    simp only [Nat.toDigitsCore]
    have hmod : n % 10 < 10 := Nat.mod_lt _ (by omega)
    split
    · rename_i h0
      have hlt : n < 10 := by omega
      have hm : n % 10 = n := Nat.mod_eq_of_lt hlt
      refine ⟨?_, ?_⟩
      · simp [decodeDigits, hm, digitVal_digitChar n hlt]
      · intro c hc
        simp only [List.mem_singleton] at hc
        rw [hc]
        exact isDigit_digitChar _ hmod
    · rename_i h0
      have hdiv : n / 10 < fuel := by omega
      obtain ⟨ih1, ih2⟩ := ih (n / 10) hdiv
      rw [toDigitsCore_append]
      refine ⟨?_, ?_⟩
      · rw [decodeDigits_append, ih1, digitVal_digitChar _ hmod]
        omega
      · intro c hc
        simp only [List.mem_append, List.mem_singleton] at hc
        rcases hc with hc | hc
        · exact ih2 c hc
        · rw [hc]
          exact isDigit_digitChar _ hmod

theorem decodeDigits_toDigits (n : Nat) : decodeDigits (Nat.toDigits 10 n) = n :=
  (toDigitsCore_spec (n + 1) n (by omega)).1

theorem isDigit_of_mem_toDigits (n : Nat) (c : Char) (h : c ∈ Nat.toDigits 10 n) :
    c.isDigit = true :=
  (toDigitsCore_spec (n + 1) n (by omega)).2 c h

theorem toDigits_ne_minus (n m : Nat) : Nat.toDigits 10 n ≠ '-' :: Nat.toDigits 10 m := by
  intro h
  have hmem : '-' ∈ Nat.toDigits 10 n := by rw [h]; simp
  have := isDigit_of_mem_toDigits n _ hmem
  revert this
  decide

/-- Two status codes with the same decimal string are equal. -/
theorem Itoa_injective (i j : Int) (h : Itoa i = Itoa j) : i = j := by
  have hd := congrArg String.data h
  cases i with
  | ofNat n =>
    cases j with
    | ofNat m =>
      simp only [Itoa] at hd
      have := congrArg decodeDigits hd
      rw [decodeDigits_toDigits, decodeDigits_toDigits] at this
      rw [this]
    | negSucc m =>
      simp only [Itoa] at hd
      exact absurd hd (toDigits_ne_minus n (m + 1))
  | negSucc n =>
    cases j with
    | ofNat m =>
      simp only [Itoa] at hd
      exact absurd hd.symm (toDigits_ne_minus m (n + 1))
    | negSucc m =>
      simp only [Itoa, List.cons.injEq, true_and] at hd
      have := congrArg decodeDigits hd
      rw [decodeDigits_toDigits, decodeDigits_toDigits] at this
      have hnm : n = m := by omega
      rw [hnm]

theorem Itoa_200 : Itoa 200 = "200" := by decide

/-! ## Lemmas on the registry -/

theorem lookupChild_setChild {α : Type} (k : String) (x : α) (l : List (String × α))
    (k1 : String) :
    lookupChild k1 (setChild k x l) = if k1 = k then some x else lookupChild k1 l := by
  induction l with
  | nil => simp [setChild, lookupChild]
  | cons p rest ih =>
    obtain ⟨k2, y⟩ := p
    simp only [setChild]
    by_cases h : k = k2
    · subst h
      simp only [if_true, lookupChild]
      by_cases h1 : k1 = k <;> simp [h1]
    · simp only [h, if_false, lookupChild, ih]
      by_cases h1 : k1 = k
      · subst h1
        simp [h]
      · simp [h1]

theorem CounterVec.child_inc (v : CounterVec) (lv k : String) :
    ((v.WithLabelValues lv).Inc lv).child k =
      if k = lv then some (v.value lv + 1) else v.child k := by
  cases h : lookupChild lv v.children with
  | none =>
    have h0 : v.WithLabelValues lv = { v with children := setChild lv 0 v.children } := by
      simp only [CounterVec.WithLabelValues, CounterVec.child, h]
    have h1 : lookupChild lv (v.WithLabelValues lv).children = some 0 := by
      rw [h0]
      simp [lookupChild_setChild]
    simp only [CounterVec.Inc, CounterVec.child, h1, lookupChild_setChild, CounterVec.value, h,
      Option.getD_none]
    by_cases hk : k = lv
    · simp [hk]
    · simp [hk, h0, lookupChild_setChild]
  | some n =>
    have h1 : v.WithLabelValues lv = v := by
      simp only [CounterVec.WithLabelValues, CounterVec.child, h]
    simp only [h1, CounterVec.Inc, CounterVec.child, h, lookupChild_setChild, CounterVec.value,
      Option.getD_some]

theorem CounterVec.name_inc (v : CounterVec) (lv : String) :
    ((v.WithLabelValues lv).Inc lv).Name = v.Name := by
  simp only [CounterVec.Inc, CounterVec.WithLabelValues]
  repeat' split
  all_goals rfl

theorem CounterVec.value_inc (v : CounterVec) (lv : String) :
    ((v.WithLabelValues lv).Inc lv).value lv = v.value lv + 1 := by
  simp [CounterVec.value, CounterVec.child_inc]

theorem CounterVec.child_inc_ne (v : CounterVec) (lv k : String) (h : k ≠ lv) :
    ((v.WithLabelValues lv).Inc lv).child k = v.child k := by
  simp [CounterVec.child_inc, h]

theorem CounterVec.value_inc_ne (v : CounterVec) (lv k : String) (h : k ≠ lv) :
    ((v.WithLabelValues lv).Inc lv).value k = v.value k := by
  simp [CounterVec.value, CounterVec.child_inc_ne v lv k h]

theorem HistogramVec.child_with (v : HistogramVec) (lv k : String) :
    (v.WithLabelValues lv).child k = if k = lv then some (v.samples lv) else v.child k := by
  cases h : lookupChild lv v.children with
  | none =>
    simp only [HistogramVec.WithLabelValues, HistogramVec.child, h, lookupChild_setChild,
      HistogramVec.samples, Option.getD_none]
  | some xs =>
    simp only [HistogramVec.WithLabelValues, HistogramVec.child, h, HistogramVec.samples,
      Option.getD_some]
    by_cases hk : k = lv
    · simp [hk, h]
    · simp [hk]

theorem HistogramVec.name_with (v : HistogramVec) (lv : String) :
    (v.WithLabelValues lv).Name = v.Name := by
  simp only [HistogramVec.WithLabelValues]
  split <;> rfl

theorem HistogramVec.child_observe (v : HistogramVec) (lv k : String) (x : Nat) :
    ((v.WithLabelValues lv).Observe lv x).child k =
      if k = lv then some (x :: v.samples lv) else v.child k := by
  have h1 : (v.WithLabelValues lv).child lv = some (v.samples lv) := by
    simp [HistogramVec.child_with]
  simp only [HistogramVec.Observe, h1]
  by_cases hk : k = lv
  · simp [hk, HistogramVec.child, lookupChild_setChild]
  · have h2 := HistogramVec.child_with v lv k
    simp only [hk, if_false] at h2
    simp only [HistogramVec.child] at h2
    simp [hk, HistogramVec.child, lookupChild_setChild, h2]

theorem HistogramVec.name_observe (v : HistogramVec) (lv : String) (x : Nat) :
    ((v.WithLabelValues lv).Observe lv x).Name = v.Name := by
  have h1 : (v.WithLabelValues lv).child lv = some (v.samples lv) := by
    simp [HistogramVec.child_with]
  simp only [HistogramVec.Observe, h1, HistogramVec.name_with]

theorem HistogramVec.samples_observe (v : HistogramVec) (lv : String) (x : Nat) :
    ((v.WithLabelValues lv).Observe lv x).samples lv = x :: v.samples lv := by
  simp [HistogramVec.samples, HistogramVec.child_observe]

theorem HistogramVec.child_observe_ne (v : HistogramVec) (lv k : String) (x : Nat)
    (h : k ≠ lv) : ((v.WithLabelValues lv).Observe lv x).child k = v.child k := by
  simp [HistogramVec.child_observe, h]

theorem makeMiddleware_returned (σ : World) (prom : Nat) (P : Prom) (next : Handler)
    (w : List Call) (r : Request) (hP : σ.heap prom = some P)
    (hret : (next r).panics = false) :
    ∃ σ1, makeMiddleware prom next w r σ = Outcome.returned σ1 ∧
      σ1.heap prom = some (afterReturn P r.RequestURI
        (ServeHTTP next (newResponseWriter w) r).statusCode (next r).elapsed) ∧
      (∀ q, q ≠ prom → σ1.heap q = σ.heap q) ∧ σ1.next = σ.next := by
  refine ⟨_, by simp only [makeMiddleware, hret, Bool.false_eq_true, if_false]; rfl, ?_, ?_, ?_⟩
  · simp [World.modify, hP, afterReturn, Timer.ObserveDuration, NewTimer]
  · intro q hq
    simp [World.modify, hq]
  · simp [World.modify]

theorem makeMiddleware_panicked (σ : World) (prom : Nat) (P : Prom) (next : Handler)
    (w : List Call) (r : Request) (hP : σ.heap prom = some P)
    (hpan : (next r).panics = true) :
    ∃ σ1, makeMiddleware prom next w r σ = Outcome.panicked σ1 ∧
      σ1.heap prom = some (afterPanic P r.RequestURI) ∧
      (∀ q, q ≠ prom → σ1.heap q = σ.heap q) ∧ σ1.next = σ.next := by
  refine ⟨_, by simp only [makeMiddleware, hpan, if_true]; rfl, ?_, ?_, ?_⟩
  · simp [World.modify, hP, afterPanic]
  · intro q hq
    simp [World.modify, hq]
  · simp [World.modify]

/-- A request through the middleware of one registry leaves all others alone. -/
theorem makeMiddleware_frame (σ : World) (prom : Nat) (next : Handler) (w : List Call)
    (r : Request) (q : Nat) (hq : q ≠ prom) :
    (makeMiddleware prom next w r σ).world.heap q = σ.heap q := by
  simp only [makeMiddleware]
  split <;> simp [Outcome.world, World.modify, hq]

/-- A request neither allocates nor frees a registry. -/
theorem makeMiddleware_keeps (σ : World) (prom : Nat) (next : Handler) (w : List Call)
    (r : Request) :
    (makeMiddleware prom next w r σ).world.next = σ.next ∧
    ∀ q, ((makeMiddleware prom next w r σ).world.heap q).isSome = (σ.heap q).isSome := by
  simp only [makeMiddleware]
  split
  · refine ⟨by simp [Outcome.world, World.modify], ?_⟩
    intro q
    by_cases hq : q = prom
    · subst hq
      cases h : σ.heap q <;> simp [Outcome.world, World.modify, h]
    · simp [Outcome.world, World.modify, hq]
  · refine ⟨by simp [Outcome.world, World.modify], ?_⟩
    intro q
    by_cases hq : q = prom
    · subst hq
      cases h : σ.heap q <;> simp [Outcome.world, World.modify, h]
    · simp [Outcome.world, World.modify, hq]

theorem serveAll_frame (prom : Nat) (q : Nat) (hq : q ≠ prom) (reqs : List (Handler × Request)) :
    ∀ σ : World, (serveAll (makeMiddleware prom) reqs σ).heap q = σ.heap q := by
  induction reqs with
  | nil => intro σ; rfl
  | cons x reqs ih =>
    intro σ
    obtain ⟨next, r⟩ := x
    simp only [serveAll]
    rw [ih, makeMiddleware_frame σ prom next [] r q hq]

theorem serveAll_keeps (prom : Nat) (reqs : List (Handler × Request)) :
    ∀ σ : World, (serveAll (makeMiddleware prom) reqs σ).next = σ.next ∧
      ∀ q, ((serveAll (makeMiddleware prom) reqs σ).heap q).isSome = (σ.heap q).isSome := by
  induction reqs with
  | nil => intro σ; exact ⟨rfl, fun _ => rfl⟩
  | cons x reqs ih =>
    intro σ
    obtain ⟨next, r⟩ := x
    simp only [serveAll]
    obtain ⟨h1, h2⟩ := ih (makeMiddleware prom next [] r σ).world
    obtain ⟨h3, h4⟩ := makeMiddleware_keeps σ prom next [] r
    exact ⟨h1.trans h3, fun q => (h2 q).trans (h4 q)⟩

theorem serveBoth_keeps (a b : Nat) (reqs : List (Bool × Handler × Request)) :
    ∀ σ : World, ∀ q,
      ((serveBoth (makeMiddleware a) (makeMiddleware b) reqs σ).heap q).isSome =
        (σ.heap q).isSome := by
  induction reqs with
  | nil => intro σ q; rfl
  | cons x reqs ih =>
    intro σ q
    obtain ⟨flag, next, r⟩ := x
    cases flag
    · simp only [serveBoth]
      rw [ih, (makeMiddleware_keeps σ b next [] r).2]
    · simp only [serveBoth]
      rw [ih, (makeMiddleware_keeps σ a next [] r).2]

/-- The three names that `New` derives are pairwise different. -/
theorem names_distinct (x : String) :
    x ++ "_response_status" ≠ x ++ "_http_requests_total" ∧
    x ++ "_http_response_time_seconds" ≠ x ++ "_http_requests_total" ∧
    x ++ "_http_response_time_seconds" ≠ x ++ "_response_status" := by
  refine ⟨?_, ?_, ?_⟩ <;>
  · intro h
    have h1 := congrArg String.length h
    simp only [String.length_append] at h1
    have e1 : "_http_requests_total".length = 20 := rfl
    have e2 : "_response_status".length = 16 := rfl
    have e3 : "_http_response_time_seconds".length = 27 := rfl
    omega

/-- When `New` returns, it returns the next free address, the middleware bound
to it and a state where a registry without children lives at that address. -/
theorem New_some (tbl : Char → Char) (validName : String → Bool) (name : String) (σ : World)
    (prom : Nat) (mw : Handler → List Call → Request → World → Outcome) (σ1 : World)
    (h : New tbl validName name σ = some (prom, mw, σ1)) :
    prom = σ.next ∧ mw = makeMiddleware σ.next ∧ σ1.next = σ.next + 1 ∧
    (∀ q, q ≠ σ.next → σ1.heap q = σ.heap q) ∧
    ∃ P, σ1.heap σ.next = some P ∧
      P.totalRequests = NewCounterVec (toSnakeCase tbl name ++ "_http_requests_total")
        ("Number of requests to service " ++ name ++ " according to path.") "path" ∧
      P.responseStatus = NewCounterVec (toSnakeCase tbl name ++ "_response_status")
        ("Status of HTTP response for service " ++ name) "status" ∧
      P.httpDuration = NewHistogramVec (toSnakeCase tbl name ++ "_http_response_time_seconds")
        ("Duration of HTTP requests for service " ++ name ++ " according to path.") "path" ∧
      validName (toSnakeCase tbl name ++ "_http_requests_total") = true := by
  simp only [New] at h
  split at h
  · cases h
  · rename_i reg1 h1
    split at h
    · cases h
    · split at h
      · cases h
      · simp only [Option.some.injEq, Prod.mk.injEq] at h
        obtain ⟨rfl, rfl, rfl⟩ := h
        have hv : validName (toSnakeCase tbl name ++ "_http_requests_total") = true := by
          simp only [MustRegister, NewCounterVec] at h1
          split at h1
          · rename_i hc
            exact hc.1
          · cases h1
        refine ⟨rfl, rfl, rfl, ?_, ⟨NewCounterVec (toSnakeCase tbl name ++ "_http_requests_total")
            ("Number of requests to service " ++ name ++ " according to path.") "path",
          NewCounterVec (toSnakeCase tbl name ++ "_response_status")
            ("Status of HTTP response for service " ++ name) "status",
          NewHistogramVec (toSnakeCase tbl name ++ "_http_response_time_seconds")
            ("Duration of HTTP requests for service " ++ name ++ " according to path.")
            "path"⟩, by simp, rfl, rfl, rfl, hv⟩
        intro q hq
        simp [hq]

/-- `New` returns whenever the library accepts the three derived names. -/
theorem New_of_valid (tbl : Char → Char) (validName : String → Bool) (name : String) (σ : World)
    (h1 : validName (toSnakeCase tbl name ++ "_http_requests_total") = true)
    (h2 : validName (toSnakeCase tbl name ++ "_response_status") = true)
    (h3 : validName (toSnakeCase tbl name ++ "_http_response_time_seconds") = true) :
    ∃ σ1, New tbl validName name σ = some (σ.next, makeMiddleware σ.next, σ1) := by
  obtain ⟨d1, d2, d3⟩ := names_distinct (toSnakeCase tbl name)
  simp [New, MustRegister, NewCounterVec, NewHistogramVec, h1, h2, h3, d1, d2, d3]

/-- `New` panics when the library rejects the name of the request counter. -/
theorem New_of_invalid (tbl : Char → Char) (validName : String → Bool) (name : String)
    (σ : World) (h1 : validName (toSnakeCase tbl name ++ "_http_requests_total") = false) :
    New tbl validName name σ = none := by
  simp [New, MustRegister, NewCounterVec, h1]

/-! ## Claims on name normalisation -/

theorem toSnakeCase_order_service (tbl : Char → Char) :
    toSnakeCase tbl "Order Service" = "order _service" := by
  simp [toSnakeCase, replaceFirstCap, replaceAllCap, matchFirstCap, matchAllCap, ToLower,
    toLowerRune, isDot, isLowerOrDigit]

theorem toSnakeCase_newline (tbl : Char → Char) : toSnakeCase tbl "\nAb" = "\nab" := by
  simp [toSnakeCase, replaceFirstCap, replaceAllCap, matchFirstCap, matchAllCap, ToLower,
    toLowerRune, isDot, isLowerOrDigit]

theorem specSnakeCase_newline (tbl : Char → Char) :
    specSnakeCase (fun _ => true) tbl "\nAb" = "\n_ab" := by
  simp [specSnakeCase, insertUnderscores, specBoundary, ToLower, toLowerRune, isLowerOrDigit]

theorem toLowerRune_of_alnum (tbl : Char → Char) (d : Char)
    (h : d.isAlphanum = true ∨ d = '_') :
    (toLowerRune tbl d).isLower = true ∨ (toLowerRune tbl d).isDigit = true ∨
      toLowerRune tbl d = '_' := by
  rcases h with h | h
  · simp only [Char.isAlphanum, Char.isAlpha, Bool.or_eq_true] at h
    rcases h with (h | h) | h
    · have h1 := (isUpper_iff d).1 h
      rw [toLowerRune_ascii tbl d (by omega)]
      left
      rw [isLower_iff, toLower_toNat]
      split <;> omega
    · have h1 := (isLower_iff d).1 h
      rw [toLowerRune_ascii tbl d (by omega)]
      left
      rw [isLower_iff, toLower_toNat]
      split <;> omega
    · have h1 := (isDigit_iff d).1 h
      rw [toLowerRune_ascii tbl d (by omega)]
      right; left
      rw [isDigit_iff, toLower_toNat]
      split <;> omega
  · subst h
    right; right
    rw [toLowerRune_ascii tbl _ (by decide)]
    decide

theorem sampleTable_fixed (c : Char) (_hc : 0x7F < c.toNat) :
    toLowerRune sampleTable (sampleTable c) = sampleTable c := by
  have h1 : toLowerRune sampleTable 'é' = 'é' := by decide
  by_cases h : c = 'É'
  · simp only [sampleTable, h, if_true]
    exact h1
  · simp only [sampleTable, h, if_false]
    have h2 : ¬ c.toNat ≤ 0x7F := by omega
    simp [toLowerRune, h2, sampleTable, h]

/-- C5, counterexample: whatever the Unicode table, the normalised form of
"Order Service" has a character that is neither a lowercase letter nor a
digit nor an underscore (the space is kept). -/
theorem toSnakeCase_charset_fails :
    ¬ ∃ tbl : Char → Char, ∀ c ∈ (toSnakeCase tbl "Order Service").data,
      c.isLower = true ∨ c.isDigit = true ∨ c = '_' := by
  rintro ⟨tbl, h⟩
  rw [toSnakeCase_order_service] at h
  have := h ' ' (by decide)
  revert this
  decide

theorem sublist_insertUnderscores (f : Char → Bool) (s : List Char) :
    ∀ prev : Option Char, s.Sublist (insertUnderscores f prev s) := by
  induction s with
  | nil => intro prev; simp [insertUnderscores]
  | cons d rest ih =>
    intro prev
    simp only [insertUnderscores]
    split
    · exact List.Sublist.cons _ (List.Sublist.cons₂ _ (ih _))
    · exact List.Sublist.cons₂ _ (ih _)

theorem isSnakeChar_iff (c : Char) :
    isSnakeChar c = true ↔ (c.isLower = true ∨ c.isDigit = true ∨ c = '_') := by
  simp [isSnakeChar, or_assoc]

/-- C5, amended: the output of `toSnakeCase` is made of the characters of the
input, in their order and each in its lowercase form, and of inserted
underscores: every output character is an underscore or the lowercase form of
an input character, and the lowercased input is a subsequence of the output.
So the output has only lowercase letters `a` to `z`, digits and underscores
exactly when the lowercase form of every input character is one of these, as
it is when the input is made of ASCII letters, digits and underscores. When
`unicode.ToLower` fixes the values of its table, no output character is changed
by lowercasing, so none is in `A` to `Z`. -/
theorem toSnakeCase_charset (tbl : Char → Char) (s : String) :
    (∀ c ∈ (toSnakeCase tbl s).data, c = '_' ∨ ∃ d ∈ s.data, c = toLowerRune tbl d) ∧
    (ToLower tbl s.data).Sublist (toSnakeCase tbl s).data ∧
    ((∀ c ∈ (toSnakeCase tbl s).data, isSnakeChar c = true) ↔
      ∀ d ∈ s.data, isSnakeChar (toLowerRune tbl d) = true) ∧
    ((∀ d ∈ s.data, d.isAlphanum = true ∨ d = '_') →
      ∀ c ∈ (toSnakeCase tbl s).data, isSnakeChar c = true) ∧
    ((∀ c : Char, 0x7F < c.toNat → toLowerRune tbl (tbl c) = tbl c) →
      ∀ c ∈ (toSnakeCase tbl s).data, toLowerRune tbl c = c ∧ c.isUpper = false) := by
  have hmem : ∀ c ∈ (toSnakeCase tbl s).data,
      ∃ d, (d = '_' ∨ d ∈ s.data) ∧ c = toLowerRune tbl d := by
    intro c hc
    rw [toSnakeCase_data] at hc
    simp only [ToLower, List.mem_map] at hc
    obtain ⟨d, hd, rfl⟩ := hc
    exact ⟨d, mem_insertUnderscores isDot s.data none d hd, rfl⟩
  have hus : toLowerRune tbl '_' = '_' := by
    rw [toLowerRune_ascii tbl _ (by decide)]
    decide
  have hsub : (ToLower tbl s.data).Sublist (toSnakeCase tbl s).data := by
    rw [toSnakeCase_data]
    exact (sublist_insertUnderscores isDot s.data none).map _
  have hiff : (∀ c ∈ (toSnakeCase tbl s).data, isSnakeChar c = true) ↔
      ∀ d ∈ s.data, isSnakeChar (toLowerRune tbl d) = true := by
    constructor
    · intro h d hd
      exact h _ (hsub.subset (List.mem_map.2 ⟨d, hd, rfl⟩))
    · intro h c hc
      obtain ⟨d, hd, rfl⟩ := hmem c hc
      rcases hd with hd | hd
      · rw [hd, hus]
        decide
      · exact h d hd
  refine ⟨?_, hsub, hiff, ?_, ?_⟩
  · intro c hc
    obtain ⟨d, hd, rfl⟩ := hmem c hc
    rcases hd with hd | hd
    · left
      rw [hd, hus]
    · exact Or.inr ⟨d, hd, rfl⟩
  · intro h
    refine hiff.2 ?_
    intro d hd
    exact (isSnakeChar_iff _).2 (toLowerRune_of_alnum tbl d (h d hd))
  · intro htbl c hc
    obtain ⟨d, -, rfl⟩ := hmem c hc
    have hfix := toLowerRune_idem tbl htbl d
    exact ⟨hfix, not_upper_of_fixed tbl _ hfix⟩

/-- Instance of the amended C5 at the input "HTTPServer2" with a table that
lowers one non-ASCII letter. -/
theorem toSnakeCase_charset_witness :
    (∀ d ∈ "HTTPServer2".data, d.isAlphanum = true ∨ d = '_') ∧
    (∀ c ∈ (toSnakeCase sampleTable "HTTPServer2").data, isSnakeChar c = true) ∧
    (∀ c : Char, 0x7F < c.toNat → toLowerRune sampleTable (sampleTable c) = sampleTable c) ∧
    ∀ c ∈ (toSnakeCase sampleTable "HTTPServer2").data,
      toLowerRune sampleTable c = c ∧ c.isUpper = false :=
  ⟨by decide, (toSnakeCase_charset sampleTable "HTTPServer2").2.2.2.1 (by decide),
    sampleTable_fixed, (toSnakeCase_charset sampleTable "HTTPServer2").2.2.2.2 sampleTable_fixed⟩

theorem toSnakeCase_accent (tbl : Char → Char) : toSnakeCase tbl "éA" = ⟨[tbl 'é', 'a']⟩ := by
  simp [toSnakeCase, replaceFirstCap, replaceAllCap, matchFirstCap, matchAllCap, ToLower,
    toLowerRune, isDot, isLowerOrDigit]

/-- C7, counterexample: for the input newline, `A`, `b` the code inserts no
underscore, while the rule of the claim (any character before an uppercase
letter followed by a lowercase letter) asks for one before `A`; and for the
input `é`, `A` the code inserts no underscore either, although `é` is a
lowercase letter: the output is the two lowercased characters. -/
theorem toSnakeCase_spec_fails :
    (¬ ∃ tbl : Char → Char,
      toSnakeCase tbl "\nAb" = specSnakeCase (fun _ => true) tbl "\nAb") ∧
    (¬ ∃ tbl : Char → Char, toSnakeCase tbl "éA" ≠ ⟨[tbl 'é', 'a']⟩) := by
  refine ⟨?_, ?_⟩
  · rintro ⟨tbl, h⟩
    rw [toSnakeCase_newline, specSnakeCase_newline] at h
    revert h
    decide
  · rintro ⟨tbl, h⟩
    exact h (toSnakeCase_accent tbl)

/-- C7, amended: `toSnakeCase` is the lowercasing of the input with exactly one
underscore before each ASCII uppercase letter (`A` to `Z`) that has a
predecessor which is an ASCII lowercase letter (`a` to `z`) or digit (`0` to
`9`), or which is any character other than a newline while the successor is an
ASCII lowercase letter; nothing is inserted elsewhere. The three examples of
the claim hold. -/
theorem toSnakeCase_eq_spec :
    (∀ (tbl : Char → Char) (s : String), toSnakeCase tbl s = specSnakeCase isDot tbl s) ∧
    (∀ tbl : Char → Char, toSnakeCase tbl "MyCoolService" = "my_cool_service") ∧
    (∀ tbl : Char → Char, toSnakeCase tbl "HTTPServer" = "http_server") ∧
    (∀ tbl : Char → Char, toSnakeCase tbl "already_snake" = "already_snake") := by
  have key : ∀ (tbl : Char → Char) (s : String),
      toSnakeCase tbl s = specSnakeCase isDot tbl s := by
    intro tbl s
    have h := toSnakeCase_data tbl s
    cases hs : toSnakeCase tbl s with
    | mk data =>
      rw [hs] at h
      simp only [specSnakeCase]
      rw [← h]
  refine ⟨key, ?_, ?_, ?_⟩ <;> intro tbl <;> rw [key] <;>
    simp [specSnakeCase, insertUnderscores, specBoundary, ToLower, toLowerRune, isLowerOrDigit,
      isDot]

/-- C8: `toSnakeCase` is idempotent, for every Unicode lowercase table whose
values on non-ASCII runes are fixed by `unicode.ToLower`. -/
theorem toSnakeCase_idempotent (tbl : Char → Char)
    (htbl : ∀ c : Char, 0x7F < c.toNat → toLowerRune tbl (tbl c) = tbl c) (s : String) :
    toSnakeCase tbl (toSnakeCase tbl s) = toSnakeCase tbl s := by
  have hfix : ∀ d ∈ (toSnakeCase tbl s).data, toLowerRune tbl d = d := by
    intro d hd
    rw [toSnakeCase_data] at hd
    simp only [ToLower, List.mem_map] at hd
    obtain ⟨e, -, rfl⟩ := hd
    exact toLowerRune_idem tbl htbl e
  have hno : ∀ d ∈ (toSnakeCase tbl s).data, d.isUpper = false :=
    fun d hd => not_upper_of_fixed tbl d (hfix d hd)
  have h2 := toSnakeCase_data tbl (toSnakeCase tbl s)
  rw [insertUnderscores_of_no_upper isDot _ none hno] at h2
  have h3 : ToLower tbl (toSnakeCase tbl s).data = (toSnakeCase tbl s).data := by
    simp only [ToLower]
    exact (List.map_congr_left hfix).trans (List.map_id _)
  apply String.ext
  rw [h2, h3]

/-- Instance of C8 with a table that lowers one non-ASCII letter. -/
theorem toSnakeCase_idempotent_witness :
    (∀ c : Char, 0x7F < c.toNat → toLowerRune sampleTable (sampleTable c) = sampleTable c) ∧
    toSnakeCase sampleTable (toSnakeCase sampleTable "ÉcoleHTTPServer") =
      toSnakeCase sampleTable "ÉcoleHTTPServer" :=
  ⟨sampleTable_fixed, toSnakeCase_idempotent sampleTable sampleTable_fixed "ÉcoleHTTPServer"⟩

/-- The condition on the table in C8 is needed: idempotence on the one-rune
strings already gives it. -/
theorem toLowerRune_fixed_of_idempotent (tbl : Char → Char)
    (h : ∀ s : String, toSnakeCase tbl (toSnakeCase tbl s) = toSnakeCase tbl s) (c : Char) :
    toLowerRune tbl (toLowerRune tbl c) = toLowerRune tbl c := by
  have h1 : ∀ d : Char, (toSnakeCase tbl ⟨[d]⟩).data = [toLowerRune tbl d] := by
    intro d
    rw [toSnakeCase_data]
    simp [insertUnderscores, specBoundary, ToLower]
  have h2 := congrArg String.data (h ⟨[c]⟩)
  have h3 : toSnakeCase tbl ⟨[c]⟩ = ⟨[toLowerRune tbl c]⟩ := String.ext (h1 c)
  rw [h3, h1] at h2
  simpa using h2

theorem toSnakeCase_sample : toSnakeCase sampleTable "ÉcoleHTTPServer" = "école_http_server" := by
  simp [toSnakeCase, replaceFirstCap, replaceAllCap, matchFirstCap, matchAllCap, ToLower,
    toLowerRune, isDot, isLowerOrDigit, sampleTable]

/-! ## Claims on the middleware -/

theorem lastWriteHeader_foldl (cs : List Call) :
    ∀ rw : responseWriter, (cs.foldl responseWriter.call rw).statusCode =
      (lastWriteHeader cs).getD rw.statusCode := by
  induction cs with
  | nil => intro rw; rfl
  | cons c cs ih =>
    intro rw
    cases c with
    | WriteHeader code =>
      simp only [List.foldl_cons, lastWriteHeader, ih, responseWriter.call,
        responseWriter.WriteHeader]
      cases lastWriteHeader cs <;> rfl
    | Write body =>
      simp only [List.foldl_cons, lastWriteHeader, ih, responseWriter.call, responseWriter.Write]

theorem lastWriteHeader_none (cs : List Call) (h : firstWriteHeader cs = none) :
    lastWriteHeader cs = none := by
  induction cs with
  | nil => rfl
  | cons c cs ih =>
    cases c with
    | WriteHeader code => simp [firstWriteHeader] at h
    | Write body => simpa [firstWriteHeader, lastWriteHeader] using ih h

/-- C1: one pass through the middleware, with a handler that returns normally
and captured status `c`, adds one to the status counter under the decimal
string of `c`, adds one to the request counter under the request target and
adds one sample to the histogram under the request target; every other key of
the three series (so also "200" when `c` is not 200), their names and every
other registry are unchanged. -/
theorem makeMiddleware_three_mutations (σ : World) (prom : Nat) (P : Prom) (next : Handler)
    (w : List Call) (r : Request) (c : Int)
    (hP : σ.heap prom = some P) (hret : (next r).panics = false)
    (hc : (ServeHTTP next (newResponseWriter w) r).statusCode = c) :
    ∃ σ1 P1, makeMiddleware prom next w r σ = Outcome.returned σ1 ∧ σ1.heap prom = some P1 ∧
      P1.responseStatus.value (Itoa c) = P.responseStatus.value (Itoa c) + 1 ∧
      (∀ k, k ≠ Itoa c → P1.responseStatus.child k = P.responseStatus.child k) ∧
      (c ≠ 200 → P1.responseStatus.child "200" = P.responseStatus.child "200") ∧
      P1.totalRequests.value r.RequestURI = P.totalRequests.value r.RequestURI + 1 ∧
      (∀ k, k ≠ r.RequestURI → P1.totalRequests.child k = P.totalRequests.child k) ∧
      (∃ x, P1.httpDuration.samples r.RequestURI = x :: P.httpDuration.samples r.RequestURI) ∧
      (∀ k, k ≠ r.RequestURI → P1.httpDuration.child k = P.httpDuration.child k) ∧
      (P1.responseStatus.Name = P.responseStatus.Name ∧
        P1.totalRequests.Name = P.totalRequests.Name ∧
        P1.httpDuration.Name = P.httpDuration.Name) ∧
      (∀ q, q ≠ prom → σ1.heap q = σ.heap q) := by
  obtain ⟨σ1, h1, h2, h3, -⟩ := makeMiddleware_returned σ prom P next w r hP hret
  rw [hc] at h2
  refine ⟨σ1, _, h1, h2, ?_, ?_, ?_, ?_, ?_, ?_, ?_,
    ⟨CounterVec.name_inc _ _, CounterVec.name_inc _ _, HistogramVec.name_observe _ _ _⟩, h3⟩
  · exact CounterVec.value_inc _ _
  · intro k hk
    exact CounterVec.child_inc_ne _ _ k hk
  · intro hne
    refine CounterVec.child_inc_ne _ _ _ ?_
    intro h200
    rw [← Itoa_200] at h200
    exact hne (Itoa_injective _ _ h200).symm
  · exact CounterVec.value_inc _ _
  · intro k hk
    exact CounterVec.child_inc_ne _ _ k hk
  · exact ⟨_, HistogramVec.samples_observe _ _ _⟩
  · intro k hk
    exact HistogramVec.child_observe_ne _ _ k _ hk

/-- Instance of C1: a request to "/a" answered with 404 on the registry of "svc". -/
theorem makeMiddleware_three_mutations_witness :
    svcWorld.heap 0 = some svcProm ∧ (statusHandler 404 7 ⟨"/a"⟩).panics = false ∧
    (ServeHTTP (statusHandler 404 7) (newResponseWriter []) ⟨"/a"⟩).statusCode = 404 ∧
    ∃ σ1 P1, makeMiddleware 0 (statusHandler 404 7) [] ⟨"/a"⟩ svcWorld = Outcome.returned σ1 ∧
      σ1.heap 0 = some P1 ∧
      P1.responseStatus.value "404" = svcProm.responseStatus.value "404" + 1 ∧
      P1.responseStatus.child "200" = svcProm.responseStatus.child "200" ∧
      P1.totalRequests.value "/a" = svcProm.totalRequests.value "/a" + 1 := by
  refine ⟨rfl, rfl, rfl, ?_⟩
  obtain ⟨σ1, P1, h1, h2, h3, -, h5, h6, -⟩ :=
    makeMiddleware_three_mutations svcWorld 0 svcProm (statusHandler 404 7) [] ⟨"/a"⟩ 404
      rfl rfl rfl
  have h404 : Itoa 404 = "404" := by decide
  rw [h404] at h3
  exact ⟨σ1, P1, h1, h2, h3, h5 (by decide), h6⟩

/-- C3, counterexample: a handler that calls `WriteHeader(404)` and then
`WriteHeader(500)` leaves 500 recorded, not the code 404 of its first call. -/
theorem first_status_not_recorded :
    firstWriteHeader (twiceHandler 404 500 ⟨"/a"⟩).calls = some 404 ∧
    (ServeHTTP (twiceHandler 404 500) (newResponseWriter []) ⟨"/a"⟩).statusCode ≠ 404 := by
  decide

/-- C3, amended: when the handler calls `WriteHeader` one or more times before
it returns, the status recorded at its return is the code of the last of these
calls, and the middleware adds one to the status counter under that code. -/
theorem last_status_recorded (σ : World) (prom : Nat) (P : Prom) (next : Handler)
    (w : List Call) (r : Request) (c : Int)
    (hP : σ.heap prom = some P) (hret : (next r).panics = false)
    (hlast : lastWriteHeader (next r).calls = some c) :
    (ServeHTTP next (newResponseWriter w) r).statusCode = c ∧
    ∃ σ1 P1, makeMiddleware prom next w r σ = Outcome.returned σ1 ∧ σ1.heap prom = some P1 ∧
      P1.responseStatus.value (Itoa c) = P.responseStatus.value (Itoa c) + 1 ∧
      (∀ k, k ≠ Itoa c → P1.responseStatus.child k = P.responseStatus.child k) := by
  have hc : (ServeHTTP next (newResponseWriter w) r).statusCode = c := by
    simp [ServeHTTP, lastWriteHeader_foldl, hlast]
  obtain ⟨σ1, h1, h2, -⟩ := makeMiddleware_returned σ prom P next w r hP hret
  rw [hc] at h2
  exact ⟨hc, σ1, _, h1, h2, CounterVec.value_inc _ _,
    fun k hk => CounterVec.child_inc_ne _ _ k hk⟩

/-- Instance of the amended C3: `WriteHeader(404)` and then `WriteHeader(500)`. -/
theorem last_status_recorded_witness :
    svcWorld.heap 0 = some svcProm ∧ (twiceHandler 404 500 ⟨"/a"⟩).panics = false ∧
    lastWriteHeader (twiceHandler 404 500 ⟨"/a"⟩).calls = some 500 ∧
    (ServeHTTP (twiceHandler 404 500) (newResponseWriter []) ⟨"/a"⟩).statusCode = 500 ∧
    ∃ σ1 P1, makeMiddleware 0 (twiceHandler 404 500) [] ⟨"/a"⟩ svcWorld = Outcome.returned σ1 ∧
      σ1.heap 0 = some P1 ∧
      P1.responseStatus.value (Itoa 500) = svcProm.responseStatus.value (Itoa 500) + 1 ∧
      (∀ k, k ≠ Itoa 500 → P1.responseStatus.child k = svcProm.responseStatus.child k) :=
  ⟨rfl, rfl, rfl,
    last_status_recorded svcWorld 0 svcProm (twiceHandler 404 500) [] ⟨"/a"⟩ 500 rfl rfl rfl⟩

/-- C4: when the handler returns without any `WriteHeader` call, whether or
not it writes a body, the middleware adds exactly one to the status counter
under "200" and changes no other status key. -/
theorem default_status_200 (σ : World) (prom : Nat) (P : Prom) (next : Handler)
    (w : List Call) (r : Request)
    (hP : σ.heap prom = some P) (hret : (next r).panics = false)
    (hno : firstWriteHeader (next r).calls = none) :
    ∃ σ1 P1, makeMiddleware prom next w r σ = Outcome.returned σ1 ∧ σ1.heap prom = some P1 ∧
      P1.responseStatus.value "200" = P.responseStatus.value "200" + 1 ∧
      (∀ k, k ≠ "200" → P1.responseStatus.child k = P.responseStatus.child k) := by
  have hc : (ServeHTTP next (newResponseWriter w) r).statusCode = 200 := by
    simp [ServeHTTP, lastWriteHeader_foldl, lastWriteHeader_none _ hno, newResponseWriter]
  obtain ⟨σ1, h1, h2, -⟩ := makeMiddleware_returned σ prom P next w r hP hret
  rw [hc, afterReturn, Itoa_200] at h2
  exact ⟨σ1, _, h1, h2, CounterVec.value_inc _ _,
    fun k hk => CounterVec.child_inc_ne _ _ k hk⟩

/-- Instance of C4: a handler that only writes a body. -/
theorem default_status_200_witness :
    svcWorld.heap 0 = some svcProm ∧ (bodyHandler [104, 105] ⟨"/a"⟩).panics = false ∧
    firstWriteHeader (bodyHandler [104, 105] ⟨"/a"⟩).calls = none ∧
    ∃ σ1 P1, makeMiddleware 0 (bodyHandler [104, 105]) [] ⟨"/a"⟩ svcWorld =
        Outcome.returned σ1 ∧ σ1.heap 0 = some P1 ∧
      P1.responseStatus.value "200" = svcProm.responseStatus.value "200" + 1 ∧
      (∀ k, k ≠ "200" → P1.responseStatus.child k = svcProm.responseStatus.child k) :=
  ⟨rfl, rfl, rfl, default_status_200 svcWorld 0 svcProm (bodyHandler [104, 105]) [] ⟨"/a"⟩
    rfl rfl rfl⟩

theorem afterReturn_totalRequests (P : Prom) (path : String) (c : Int) (d : Nat) (k : String) :
    (afterReturn P path c d).totalRequests.value k =
      P.totalRequests.value k + if path = k then 1 else 0 := by
  by_cases h : path = k
  · subst h
    simp [afterReturn, CounterVec.value_inc]
  · have hk : k ≠ path := fun e => h e.symm
    simp [afterReturn, CounterVec.value_inc_ne _ _ _ hk, h]

theorem afterReturn_responseStatus (P : Prom) (path : String) (c : Int) (d : Nat) (k : String) :
    (afterReturn P path c d).responseStatus.value k =
      P.responseStatus.value k + if Itoa c = k then 1 else 0 := by
  by_cases h : Itoa c = k
  · subst h
    simp [afterReturn, CounterVec.value_inc]
  · have hk : k ≠ Itoa c := fun e => h e.symm
    simp [afterReturn, CounterVec.value_inc_ne _ _ _ hk, h]

theorem afterReturn_samples (P : Prom) (path : String) (c : Int) (d : Nat) (k : String) :
    (afterReturn P path c d).httpDuration.samples k =
      if path = k then d :: P.httpDuration.samples k else P.httpDuration.samples k := by
  by_cases h : path = k
  · subst h
    simp [afterReturn, HistogramVec.samples_observe]
  · have hk : k ≠ path := fun e => h e.symm
    simp [afterReturn, HistogramVec.samples, HistogramVec.child_observe_ne _ _ _ _ hk, h]

theorem afterReturn_names (P : Prom) (path : String) (c : Int) (d : Nat) :
    (afterReturn P path c d).totalRequests.Name = P.totalRequests.Name ∧
    (afterReturn P path c d).responseStatus.Name = P.responseStatus.Name ∧
    (afterReturn P path c d).httpDuration.Name = P.httpDuration.Name :=
  ⟨CounterVec.name_inc _ _, CounterVec.name_inc _ _, HistogramVec.name_observe _ _ _⟩

/-- Registry after a sequence of requests whose handlers all return. -/
theorem serveAll_heap (prom : Nat) (reqs : List (Handler × Request)) :
    ∀ (σ : World) (P : Prom), σ.heap prom = some P →
      (∀ x ∈ reqs, (x.1 x.2).panics = false) →
      (serveAll (makeMiddleware prom) reqs σ).heap prom = some (afterAll P reqs) := by
  induction reqs with
  | nil => intro σ P hP _; exact hP
  | cons x reqs ih =>
    intro σ P hP hret
    obtain ⟨next, r⟩ := x
    have hx : (next r).panics = false := hret (next, r) (by simp)
    obtain ⟨σ1, h1, h2, -⟩ := makeMiddleware_returned σ prom P next [] r hP hx
    have hrest : ∀ y ∈ reqs, (y.1 y.2).panics = false := fun y hy => hret y (by simp [hy])
    simp only [serveAll, h1, Outcome.world]
    rw [ih σ1 _ h2 hrest]
    rfl

theorem afterAll_totalRequests (reqs : List (Handler × Request)) :
    ∀ (P : Prom) (k : String), (afterAll P reqs).totalRequests.value k =
      P.totalRequests.value k + reqs.countP (fun x => x.2.RequestURI = k) := by
  induction reqs with
  | nil => intro P k; simp [afterAll]
  | cons x reqs ih =>
    intro P k
    have h := ih (afterReturn P x.2.RequestURI
      (ServeHTTP x.1 (newResponseWriter []) x.2).statusCode (x.1 x.2).elapsed) k
    simp only [afterAll, List.foldl_cons] at h ⊢
    rw [h, afterReturn_totalRequests, List.countP_cons]
    by_cases hk : x.2.RequestURI = k
    · simp [hk]
      omega
    · simp [hk]

/-- C2: after a sequence of requests, in any order, of which N have the request
target "/a" and M the request target "/b", all served through the middleware
of a freshly constructed registry by handlers that return normally, the request
counter holds exactly N under "/a" and exactly M under "/b". -/
theorem request_counter_exact (tbl : Char → Char) (validName : String → Bool)
    (serviceName : String) (σ : World) (prom : Nat)
    (middleware : Handler → List Call → Request → World → Outcome) (σ0 : World)
    (reqs : List (Handler × Request)) (N M : Nat)
    (hnew : New tbl validName serviceName σ = some (prom, middleware, σ0))
    (hret : ∀ x ∈ reqs, (x.1 x.2).panics = false)
    (hN : reqs.countP (fun x => x.2.RequestURI = "/a") = N)
    (hM : reqs.countP (fun x => x.2.RequestURI = "/b") = M) :
    ∃ P, (serveAll middleware reqs σ0).heap prom = some P ∧
      P.totalRequests.value "/a" = N ∧ P.totalRequests.value "/b" = M := by
  obtain ⟨rfl, rfl, -, -, P0, h0, ht, -⟩ := New_some tbl validName serviceName σ _ _ _ hnew
  have hzero : ∀ k, P0.totalRequests.value k = 0 := by
    intro k
    simp [ht, CounterVec.value, CounterVec.child, NewCounterVec, lookupChild]
  refine ⟨_, serveAll_heap σ.next reqs σ0 P0 h0 hret, ?_, ?_⟩
  · rw [afterAll_totalRequests, hzero, hN]; omega
  · rw [afterAll_totalRequests, hzero, hM]; omega

theorem toSnakeCase_svc (tbl : Char → Char) : toSnakeCase tbl "svc" = "svc" := by
  simp [toSnakeCase, replaceFirstCap, replaceAllCap, matchFirstCap, matchAllCap, ToLower,
    toLowerRune, isDot, isLowerOrDigit]

/-- With the older name rule of the library, `New("svc")` returns. -/
theorem New_svc (tbl : Char → Char) (σ : World) :
    ∃ σ1, New tbl legacyMetricName "svc" σ = some (σ.next, makeMiddleware σ.next, σ1) := by
  refine New_of_valid tbl legacyMetricName "svc" σ ?_ ?_ ?_ <;>
  · rw [toSnakeCase_svc]
    decide

/-- Instance of C2: the targets "/a", "/b", "/a" in this order. -/
theorem request_counter_exact_witness :
    ∃ σ0, New sampleTable legacyMetricName "svc" World.init =
        some (0, makeMiddleware 0, σ0) ∧
      (∀ x ∈ [(statusHandler 200 1, (⟨"/a"⟩ : Request)), (bodyHandler [], ⟨"/b"⟩),
        (statusHandler 404 2, ⟨"/a"⟩)], (x.1 x.2).panics = false) ∧
      ∃ P, (serveAll (makeMiddleware 0)
          [(statusHandler 200 1, ⟨"/a"⟩), (bodyHandler [], ⟨"/b"⟩),
            (statusHandler 404 2, ⟨"/a"⟩)] σ0).heap 0 = some P ∧
        P.totalRequests.value "/a" = 2 ∧ P.totalRequests.value "/b" = 1 := by
  obtain ⟨σ0, h0⟩ := New_svc sampleTable World.init
  have hret : ∀ x ∈ [(statusHandler 200 1, (⟨"/a"⟩ : Request)), (bodyHandler [], ⟨"/b"⟩),
      (statusHandler 404 2, ⟨"/a"⟩)], (x.1 x.2).panics = false := by
    intro x hx
    simp only [List.mem_cons, List.mem_singleton, List.not_mem_nil, or_false] at hx
    rcases hx with rfl | rfl | rfl <;> rfl
  exact ⟨σ0, h0, hret, request_counter_exact sampleTable legacyMetricName "svc" World.init
    0 (makeMiddleware 0) σ0 _ 2 1 h0 hret (by decide) (by decide)⟩

/-- The scenario, evaluated for a library that accepts the derived names: the
names are built on "order _service". -/
theorem orderScenario_some (tbl : Char → Char) (validName : String → Bool) (σ : World)
    (d1 d2 d3 d4 : Nat) (prom : Nat)
    (middleware : Handler → List Call → Request → World → Outcome) (σ1 : World)
    (hnew : New tbl validName "Order Service" σ = some (prom, middleware, σ1)) :
    ∃ P, orderScenario tbl validName σ d1 d2 d3 d4 = some P ∧
      P.totalRequests.Name = "order _service_http_requests_total" ∧
      P.totalRequests.value "/orders" = 4 ∧
      P.responseStatus.Name = "order _service_response_status" ∧
      P.responseStatus.value "200" = 3 ∧
      P.responseStatus.value "500" = 1 ∧
      P.httpDuration.Name = "order _service_http_response_time_seconds" ∧
      P.httpDuration.samples "/orders" = [d4, d3, d2, d1] := by
  obtain ⟨rfl, rfl, -, -, P0, h0, ht, hs, hd, -⟩ := New_some tbl validName _ σ _ _ _ hnew
  have h200 : Itoa 200 = "200" := by decide
  have h500 : Itoa 500 = "500" := by decide
  have hne : ("200" : String) ≠ "500" := by decide
  have hne2 : ("500" : String) ≠ "200" := by decide
  have hs200 : ∀ d, (ServeHTTP (statusHandler 200 d) (newResponseWriter [])
      ⟨"/orders"⟩).statusCode = 200 := fun _ => rfl
  have hs500 : ∀ d, (ServeHTTP (statusHandler 500 d) (newResponseWriter [])
      ⟨"/orders"⟩).statusCode = 500 := fun _ => rfl
  have hel : ∀ (c : Int) (d : Nat), (statusHandler c d ⟨"/orders"⟩).elapsed = d := fun _ _ => rfl
  have hret : ∀ x ∈ [(statusHandler 200 d1, (⟨"/orders"⟩ : Request)),
      (statusHandler 200 d2, ⟨"/orders"⟩), (statusHandler 200 d3, ⟨"/orders"⟩),
      (statusHandler 500 d4, ⟨"/orders"⟩)], (x.1 x.2).panics = false := by
    intro x hx
    simp only [List.mem_cons, List.mem_singleton, List.not_mem_nil, or_false] at hx
    rcases hx with rfl | rfl | rfl | rfl <;> rfl
  have hz1 : ∀ k, P0.totalRequests.value k = 0 := by
    intro k
    simp [ht, CounterVec.value, CounterVec.child, NewCounterVec, lookupChild]
  have hz2 : ∀ k, P0.responseStatus.value k = 0 := by
    intro k
    simp [hs, CounterVec.value, CounterVec.child, NewCounterVec, lookupChild]
  have hz3 : ∀ k, P0.httpDuration.samples k = [] := by
    intro k
    simp [hd, HistogramVec.samples, HistogramVec.child, NewHistogramVec, lookupChild]
  refine ⟨_, by simp only [orderScenario, hnew]; exact serveAll_heap σ.next _ σ1 P0 h0 hret,
    ?_, ?_, ?_, ?_, ?_, ?_, ?_⟩
  · simp [afterAll, afterReturn_names, ht, NewCounterVec, toSnakeCase_order_service]
  · simp [afterAll, afterReturn_totalRequests, hz1]
  · simp [afterAll, afterReturn_names, hs, NewCounterVec, toSnakeCase_order_service]
  · simp [afterAll, afterReturn_responseStatus, hz2, hs200, hs500, h200, h500, hne2]
  · simp [afterAll, afterReturn_responseStatus, hz2, hs200, hs500, h200, h500, hne]
  · simp [afterAll, afterReturn_names, hd, NewHistogramVec, toSnakeCase_order_service]
  · simp [afterAll, afterReturn_samples, hz3, hel]

/-- C6, the code at the failing input `New("Order Service")`: with the older
metric-name rule of the library the registration panics and no request is
served; with the rule that accepts any name the scenario gives the counts of
the claim under names that contain a space; under no rule does the request
counter get the name "order_service_http_requests_total". -/
theorem orderScenario_diverges :
    (∀ (tbl : Char → Char) (σ : World) (d1 d2 d3 d4 : Nat),
      orderScenario tbl legacyMetricName σ d1 d2 d3 d4 = none) ∧
    (∀ (tbl : Char → Char) (σ : World) (d1 d2 d3 d4 : Nat),
      ∃ P, orderScenario tbl utf8MetricName σ d1 d2 d3 d4 = some P ∧
        P.totalRequests.Name = "order _service_http_requests_total" ∧
        P.totalRequests.value "/orders" = 4 ∧
        P.responseStatus.Name = "order _service_response_status" ∧
        P.responseStatus.value "200" = 3 ∧
        P.responseStatus.value "500" = 1 ∧
        P.httpDuration.Name = "order _service_http_response_time_seconds" ∧
        (P.httpDuration.samples "/orders").length = 4) ∧
    (∀ (tbl : Char → Char) (validName : String → Bool) (σ : World) (d1 d2 d3 d4 : Nat),
      ¬ ∃ P, orderScenario tbl validName σ d1 d2 d3 d4 = some P ∧
        P.totalRequests.Name = "order_service_http_requests_total") := by
  refine ⟨?_, ?_, ?_⟩
  · intro tbl σ d1 d2 d3 d4
    have hnone : New tbl legacyMetricName "Order Service" σ = none := by
      refine New_of_invalid tbl legacyMetricName _ σ ?_
      rw [toSnakeCase_order_service]
      decide
    simp only [orderScenario, hnone]
  · intro tbl σ d1 d2 d3 d4
    obtain ⟨σ1, hnew⟩ := New_of_valid tbl utf8MetricName "Order Service" σ
      (by rw [toSnakeCase_order_service]; decide) (by rw [toSnakeCase_order_service]; decide)
      (by rw [toSnakeCase_order_service]; decide)
    obtain ⟨P, h0, h1, h2, h3, h4, h5, h6, h7⟩ :=
      orderScenario_some tbl utf8MetricName σ d1 d2 d3 d4 _ _ _ hnew
    exact ⟨P, h0, h1, h2, h3, h4, h5, h6, by simp [h7]⟩
  · rintro tbl validName σ d1 d2 d3 d4 ⟨P, hP, hname⟩
    cases hnew : New tbl validName "Order Service" σ with
    | none => simp [orderScenario, hnew] at hP
    | some x =>
      obtain ⟨prom, middleware, σ1⟩ := x
      obtain ⟨P1, h0, h1, -⟩ := orderScenario_some tbl validName σ d1 d2 d3 d4 _ _ _ hnew
      rw [hP] at h0
      cases h0
      rw [h1] at hname
      revert hname
      decide

theorem svcWorld_panic_gather :
    (makeMiddleware 0 panicHandler [] ⟨"/x"⟩ svcWorld).world.Gather 0 ≠ svcWorld.Gather 0 := by
  intro h
  have h1 := congrArg (Option.map List.length) h
  simp [makeMiddleware, panicHandler, Outcome.world, World.Gather, World.modify, svcWorld,
    Prom.Gather, CounterVec.family, HistogramVec.family, HistogramVec.WithLabelValues,
    HistogramVec.child, lookupChild, setChild, svcProm, NewHistogramVec, NewCounterVec] at h1

/-- C9, counterexample: on a registry that has seen no request, a request to
"/x" whose handler panics changes what `Gather` returns: the histogram has
a child for "/x" afterwards (without samples) and had none before. -/
theorem panic_changes_snapshot :
    (makeMiddleware 0 panicHandler [] ⟨"/x"⟩ svcWorld).world.Gather 0 ≠ svcWorld.Gather 0 ∧
    ∃ σ1 P1, makeMiddleware 0 panicHandler [] ⟨"/x"⟩ svcWorld = Outcome.panicked σ1 ∧
      σ1.heap 0 = some P1 ∧ P1.httpDuration.child "/x" = some [] ∧
      svcProm.httpDuration.child "/x" = none := by
  refine ⟨svcWorld_panic_gather, ?_⟩
  obtain ⟨σ1, h1, h2, -⟩ := makeMiddleware_panicked svcWorld 0 svcProm panicHandler [] ⟨"/x"⟩
    rfl rfl
  exact ⟨σ1, _, h1, h2, by simp [afterPanic, HistogramVec.child_with, HistogramVec.samples,
    HistogramVec.child, svcProm, NewHistogramVec, lookupChild], rfl⟩

/-- C9, amended: when the downstream handler panics, the panic propagates, the
request counter and the status counter are what they were before the request,
and no duration sample is recorded for any path; the histogram keeps every
child and only gains a child without samples for the request target when it
had none (made by `WithLabelValues` before the handler runs). Other registries
are unchanged. -/
theorem panic_skips_update (σ : World) (prom : Nat) (P : Prom) (next : Handler)
    (w : List Call) (r : Request)
    (hP : σ.heap prom = some P) (hpan : (next r).panics = true) :
    ∃ σ1 P1, makeMiddleware prom next w r σ = Outcome.panicked σ1 ∧ σ1.heap prom = some P1 ∧
      P1.totalRequests = P.totalRequests ∧ P1.responseStatus = P.responseStatus ∧
      (∀ k, P1.httpDuration.samples k = P.httpDuration.samples k) ∧
      (∀ k, k ≠ r.RequestURI → P1.httpDuration.child k = P.httpDuration.child k) ∧
      P1.httpDuration.child r.RequestURI = some (P.httpDuration.samples r.RequestURI) ∧
      P1.httpDuration.Name = P.httpDuration.Name ∧
      (∀ q, q ≠ prom → σ1.heap q = σ.heap q) := by
  obtain ⟨σ1, h1, h2, h3, -⟩ := makeMiddleware_panicked σ prom P next w r hP hpan
  refine ⟨σ1, _, h1, h2, rfl, rfl, ?_, ?_, ?_, HistogramVec.name_with _ _, h3⟩
  · intro k
    by_cases hk : k = r.RequestURI
    · subst hk
      simp [afterPanic, HistogramVec.samples, HistogramVec.child_with]
    · simp [afterPanic, HistogramVec.samples, HistogramVec.child_with, hk]
  · intro k hk
    simp [afterPanic, HistogramVec.child_with, hk]
  · simp [afterPanic, HistogramVec.child_with]

/-- Instance of the amended C9: a panic on the registry of "svc". -/
theorem panic_skips_update_witness :
    svcWorld.heap 0 = some svcProm ∧ (panicHandler ⟨"/x"⟩).panics = true ∧
    ∃ σ1 P1, makeMiddleware 0 panicHandler [] ⟨"/x"⟩ svcWorld = Outcome.panicked σ1 ∧
      σ1.heap 0 = some P1 ∧
      P1.totalRequests = svcProm.totalRequests ∧ P1.responseStatus = svcProm.responseStatus ∧
      (∀ k, P1.httpDuration.samples k = svcProm.httpDuration.samples k) := by
  refine ⟨rfl, rfl, ?_⟩
  obtain ⟨σ1, P1, h1, h2, h3, h4, h5, -⟩ :=
    panic_skips_update svcWorld 0 svcProm panicHandler [] ⟨"/x"⟩ rfl rfl
  exact ⟨σ1, P1, h1, h2, h3, h4, h5⟩

/-- C10: let A and B be two registries made by two calls `New("svc")`, the
second one made after any requests through A, and let any requests have been
served since through the two middlewares in any order. Then any sequence of
requests served through the middleware of A leaves the snapshot that `Gather`
returns for B as it was, and the same with A and B exchanged; both snapshots
exist. -/
theorem registries_independent (tbl : Char → Char) (validName : String → Bool) (σ : World)
    (a b : Nat) (mwA mwB : Handler → List Call → Request → World → Outcome) (σA σB : World)
    (before : List (Handler × Request)) (history : List (Bool × Handler × Request))
    (reqs : List (Handler × Request))
    (hA : New tbl validName "svc" σ = some (a, mwA, σA))
    (hB : New tbl validName "svc" (serveAll mwA before σA) = some (b, mwB, σB)) :
    (serveAll mwA reqs (serveBoth mwA mwB history σB)).Gather b =
      (serveBoth mwA mwB history σB).Gather b ∧
    (serveAll mwB reqs (serveBoth mwA mwB history σB)).Gather a =
      (serveBoth mwA mwB history σB).Gather a ∧
    ((serveBoth mwA mwB history σB).Gather b).isSome = true ∧
    ((serveBoth mwA mwB history σB).Gather a).isSome = true := by
  obtain ⟨rfl, rfl, hnA, -, PA, hPA, -⟩ := New_some tbl validName "svc" σ _ _ _ hA
  obtain ⟨hkn, hks⟩ := serveAll_keeps σ.next before σA
  obtain ⟨rfl, rfl, -, hoB, PB, hPB, -⟩ := New_some tbl validName "svc" _ _ _ _ hB
  have hne : (serveAll (makeMiddleware σ.next) before σA).next ≠ σ.next := by
    rw [hkn, hnA]
    omega
  have hsomeB : (σB.heap (serveAll (makeMiddleware σ.next) before σA).next).isSome = true := by
    rw [hPB]
    rfl
  have hsomeA : (σB.heap σ.next).isSome = true := by
    rw [hoB σ.next (fun e => hne e.symm), hks, hPA]
    rfl
  simp only [World.Gather, Option.isSome_map']
  refine ⟨?_, ?_, ?_, ?_⟩
  · rw [serveAll_frame _ _ hne]
  · rw [serveAll_frame _ _ (fun e => hne e.symm)]
  · rw [serveBoth_keeps]
    exact hsomeB
  · rw [serveBoth_keeps]
    exact hsomeA

/-- Instance of C10: B has counted a request of its own before the requests
through A are served. -/
theorem registries_independent_witness :
    ∃ σA σB, New sampleTable legacyMetricName "svc" World.init =
        some (0, makeMiddleware 0, σA) ∧
      New sampleTable legacyMetricName "svc"
        (serveAll (makeMiddleware 0) [(statusHandler 200 1, ⟨"/a"⟩)] σA) =
        some (1, makeMiddleware 1, σB) ∧
      (serveAll (makeMiddleware 0) [(statusHandler 500 3, ⟨"/a"⟩), (panicHandler, ⟨"/c"⟩)]
          (serveBoth (makeMiddleware 0) (makeMiddleware 1)
            [(false, statusHandler 404 2, ⟨"/b"⟩), (true, bodyHandler [], ⟨"/a"⟩)] σB)).Gather 1 =
        (serveBoth (makeMiddleware 0) (makeMiddleware 1)
          [(false, statusHandler 404 2, ⟨"/b"⟩), (true, bodyHandler [], ⟨"/a"⟩)] σB).Gather 1 ∧
      ((serveBoth (makeMiddleware 0) (makeMiddleware 1)
        [(false, statusHandler 404 2, ⟨"/b"⟩), (true, bodyHandler [], ⟨"/a"⟩)]
          σB).Gather 1).isSome = true := by
  obtain ⟨σA, hA⟩ := New_svc sampleTable World.init
  obtain ⟨σB, hB⟩ := New_svc sampleTable
    (serveAll (makeMiddleware World.init.next) [(statusHandler 200 1, ⟨"/a"⟩)] σA)
  have hn : (serveAll (makeMiddleware World.init.next) [(statusHandler 200 1, ⟨"/a"⟩)] σA).next
      = 1 := by
    rw [(serveAll_keeps _ _ σA).1]
    exact (New_some _ _ _ _ _ _ _ hA).2.2.1
  rw [hn] at hB
  have h := registries_independent sampleTable legacyMetricName World.init 0 1
    (makeMiddleware 0) (makeMiddleware 1) σA σB [(statusHandler 200 1, ⟨"/a"⟩)]
    [(false, statusHandler 404 2, ⟨"/b"⟩), (true, bodyHandler [], ⟨"/a"⟩)]
    [(statusHandler 500 3, ⟨"/a"⟩), (panicHandler, ⟨"/c"⟩)] hA hB
  exact ⟨σA, σB, hA, hB, h.1, h.2.2.1⟩

end Middleware
